import Mathlib

/-!
Verification of the ntfs-3g system-compression plugin's decompression
engine (src/system_compression.c, src/plugin.c, src/system_compression.h).

Machine integers are modelled as `Nat` with explicit reductions modulo
`2 ^ 64` / `2 ^ 32` wherever the C arithmetic can wrap.  Streams and
buffers are byte lists; `ntfs_attr_pread` reads `len` bytes at offset
`off` and is short at end of stream, matching the NTFS attribute read
the code relies on.  The XPRESS/LZX codecs are external collaborators
and are modelled as an abstract function
`codec : List Nat → Nat → Option (List Nat)` (compressed bytes and
expected output size to decompressed bytes, `none` on codec failure),
mirroring the `decompress` dispatch in the source.
-/

def U32 : Nat := 2 ^ 32

def U64 : Nat := 2 ^ 64

/-- u64 subtraction `a - b` with wraparound; operands are u64 values (< 2^64). -/
def sub64 (a b : Nat) : Nat := (a + U64 - b % U64) % U64

/-- u32 subtraction `a - b` with wraparound; operands are u32 values (< 2^32). -/
def sub32 (a b : Nat) : Nat := (a + U32 - b % U32) % U32

/-- NUM_CHUNK_OFFSETS from system_compression.c line 147. -/
def NUM_CHUNK_OFFSETS : Nat := 128

/-- INVALID_CHUNK_INDEX = UINT64_MAX, system_compression.c line 150. -/
def INVALID_CHUNK_INDEX : Nat := U64 - 1

/-- little-endian decode of a byte list (first byte least significant). -/
def le_decode (bs : List Nat) : Nat := bs.foldr (fun b acc => b + 256 * acc) 0

/-- little-endian encoding of `v` in `w` bytes. -/
def le_encode (w v : Nat) : List Nat := (List.range w).map (fun k => v / 256 ^ k % 256)

/-- Decompression context, struct ntfs_system_decompression_ctx.  The open
stream `na` is represented by its byte contents `data`; `compressed_size` is
the stream's data size, i.e. `data.length`; `chunk_size`, `num_chunks` and the
entry width are the derived quantities the constructor computes from
`uncompressed_size` and `chunk_order`.  The `decompressor` together with the
`format` dispatch is the abstract `codec` function. -/
structure DCtx where
  data : List Nat
  uncompressed_size : Nat
  chunk_order : Nat
  codec : List Nat → Nat → Option (List Nat)
  base_chunk_idx : Nat
  base_chunk_offset : Nat
  chunk_offsets : List Nat
  cached_chunk_idx : Nat
  cached_chunk : List Nat

/-- ctx->chunk_size = (u32)1 << ctx->chunk_order. -/
def chunkSizeOf (c : DCtx) : Nat := 1 <<< c.chunk_order

/-- ctx->num_chunks = (uncompressed_size + chunk_size - 1) >> chunk_order. -/
def numChunks (c : DCtx) : Nat :=
  (c.uncompressed_size + chunkSizeOf c - 1) >>> c.chunk_order

/-- ctx->compressed_size = ctx->na->data_size. -/
def compressedSize (c : DCtx) : Nat := c.data.length

/-- entry_shift = (uncompressed_size <= UINT32_MAX) ? 2 : 3. -/
def entryShift (c : DCtx) : Nat := if c.uncompressed_size ≤ U32 - 1 then 2 else 3

/-- Positional read on the attribute: returns the bytes actually read,
short at end of stream (the returned count is the list's length). -/
def ntfs_attr_pread (data : List Nat) (off len : Nat) : List Nat :=
  (data.drop off).take len

/-- The window check of get_chunk_location (system_compression.c lines
448-449): `chunk_idx < ctx->base_chunk_idx || chunk_idx + 1 >=
ctx->base_chunk_idx + NUM_CHUNK_OFFSETS`, in u64 arithmetic. -/
def refillNeeded (base chunk_idx : Nat) : Bool :=
  decide (chunk_idx < base) ||
  decide ((chunk_idx + 1) % U64 ≥ (base + NUM_CHUNK_OFFSETS) % U64)

/-- end_chunk of a refill (lines 452-454): the window covers chunks
[chunk_idx, end_chunk). -/
def rwEndChunk (c : DCtx) (chunk_idx : Nat) : Nat :=
  chunk_idx + min (NUM_CHUNK_OFFSETS - 1) (sub64 (numChunks c) chunk_idx)

/-- first_entry_to_read (lines 466-472): the first chunk has no explicit
chunk table entry. -/
def rwFirstEntry (chunk_idx : Nat) : Nat := if chunk_idx = 0 then 0 else chunk_idx - 1

/-- num_entries_to_read (lines 464-475), a size_t. -/
def rwNumEntries (c : DCtx) (chunk_idx : Nat) : Nat :=
  let n0 := rwEndChunk c chunk_idx - chunk_idx
  let n1 := if chunk_idx = 0 then sub64 n0 1 else n0
  if rwEndChunk c chunk_idx ≠ numChunks c then (n1 + 1) % U64 else n1

/-- the chunk table bytes read into the temporary buffer (lines 478-481). -/
def rwBuf (c : DCtx) (chunk_idx : Nat) : List Nat :=
  ntfs_attr_pread c.data ((rwFirstEntry chunk_idx <<< entryShift c) % U64)
    ((rwNumEntries c chunk_idx <<< entryShift c) % U64)

/-- the j-th little-endian entry of the temporary buffer (lines 507-521). -/
def rwEntry (c : DCtx) (chunk_idx j : Nat) : Nat :=
  le_decode (((rwBuf c chunk_idx).drop ((j <<< entryShift c) % U64)).take (1 <<< entryShift c))

/-- base_chunk_offset before the bias (lines 493-505): 0 for the implicit
first entry, else the first entry read. -/
def rwBase0 (c : DCtx) (chunk_idx : Nat) : Nat :=
  if chunk_idx = 0 then 0 else rwEntry c chunk_idx 0

/-- the chunk_offsets array contents after the populate loop (lines 492-521):
an implicit leading 0 when chunk_idx = 0, then each entry minus the base,
truncated to u32. -/
def rwOffs (c : DCtx) (chunk_idx : Nat) : List Nat :=
  (if chunk_idx = 0 then [0] else []) ++
  (List.range (rwNumEntries c chunk_idx)).map
    (fun j => sub64 (rwEntry c chunk_idx j) (rwBase0 c chunk_idx) % U32)

/-- base_chunk_offset after accounting for the chunk table itself
(line 524): biased by (num_chunks - 1) << entry_shift. -/
def rwBase1 (c : DCtx) (chunk_idx : Nat) : Nat :=
  (rwBase0 c chunk_idx + ((sub64 (numChunks c) 1 <<< entryShift c) % U64)) % U64

/-- the chunk_offsets array including the implicit last entry (lines
526-530): when the window reaches the last chunk, an extra entry
compressed_size - base_chunk_offset. -/
def rwOffs2 (c : DCtx) (chunk_idx : Nat) : List Nat :=
  if rwEndChunk c chunk_idx = numChunks c then
    rwOffs c chunk_idx ++ [sub64 (compressedSize c) (rwBase1 c chunk_idx) % U32]
  else rwOffs c chunk_idx

/-- The refill branch of get_chunk_location (lines 450-532).  Returns the
updated context, or `none` on a short chunk-table read (in which case the
caller stores INVALID_CHUNK_INDEX into base_chunk_idx and fails).  The C
array chunk_offsets[128] is modelled by the list of the entries the refill
actually writes; stale entries past the freshly written window are never
read back for any in-window chunk index. -/
def refillWindow (c : DCtx) (chunk_idx : Nat) : Option DCtx :=
  if (rwBuf c chunk_idx).length ≠ (rwNumEntries c chunk_idx <<< entryShift c) % U64
  then none
  else some { c with
    base_chunk_idx := chunk_idx
    base_chunk_offset := rwBase1 c chunk_idx
    chunk_offsets := rwOffs2 c chunk_idx }

/-- get_chunk_location (lines 438-540): refill the cache window when needed,
then answer the lookup `cache_idx = chunk_idx - base_chunk_idx`,
`offset = base_chunk_offset + chunk_offsets[cache_idx]`,
`stored_size = chunk_offsets[cache_idx+1] - chunk_offsets[cache_idx]`. -/
def get_chunk_location (c : DCtx) (chunk_idx : Nat) : DCtx × Option (Nat × Nat) :=
  let step : Option DCtx :=
    if refillNeeded c.base_chunk_idx chunk_idx then refillWindow c chunk_idx else some c
  match step with
  | none => ({ c with base_chunk_idx := INVALID_CHUNK_INDEX }, none)
  | some c1 =>
    let k := sub64 chunk_idx c1.base_chunk_idx
    (c1, some ((c1.base_chunk_offset + c1.chunk_offsets.getD k 0) % U64,
               sub32 (c1.chunk_offsets.getD (k + 1) 0) (c1.chunk_offsets.getD k 0)))

/-- Which code path a failing read_and_decompress_chunk took: the chunk
location lookup failed, the stored size was rejected as strange, the stored
data read came back short, or the codec reported failure. -/
inductive ChunkErr
  | locFail
  | invalidStored
  | shortData
  | codecFail
deriving DecidableEq

/-- The per-chunk uncompressed size computed at lines 558-562:
all chunks decompress to chunk_size bytes except the last, which
decompresses to ((uncompressed_size - 1) & (chunk_size - 1)) + 1. -/
def chunkUncompLen (c : DCtx) (chunk_idx : Nat) : Nat :=
  if chunk_idx = sub64 (numChunks c) 1 then
    (sub64 c.uncompressed_size 1 &&& (chunkSizeOf c - 1)) + 1
  else chunkSizeOf c

/-- read_and_decompress_chunk (lines 543-595). -/
def read_and_decompress_chunk (c : DCtx) (chunk_idx : Nat) :
    DCtx × Except ChunkErr (List Nat) :=
  match get_chunk_location c chunk_idx with
  | (c1, none) => (c1, .error .locFail)
  | (c1, some offstored) =>
    let stored := offstored.2
    let uncomp := chunkUncompLen c1 chunk_idx
    if stored = 0 ∨ uncomp < stored then (c1, .error .invalidStored)
    else
      let rb := ntfs_attr_pread c1.data offstored.1 stored
      if rb.length ≠ stored then (c1, .error .shortData)
      else if stored = uncomp then (c1, .ok rb)
      else
        match c1.codec rb uncomp with
        | some outb => (c1, .ok outb)
        | none => (c1, .error .codecFail)

/-- get_chunk_data (lines 599-609): answer from the single-chunk cache when
possible; otherwise invalidate the cached index, decode, and restore the
index only on success. -/
def get_chunk_data (c : DCtx) (chunk_idx : Nat) : DCtx × Option (List Nat) :=
  if chunk_idx ≠ c.cached_chunk_idx then
    let c1 : DCtx := { c with cached_chunk_idx := INVALID_CHUNK_INDEX }
    match read_and_decompress_chunk c1 chunk_idx with
    | (c2, .error _) => (c2, none)
    | (c2, .ok bs) =>
      ({ c2 with cached_chunk := bs, cached_chunk_idx := chunk_idx }, some bs)
  else (c, some c.cached_chunk)

/-- memcpy(p, &chunk[offset_in_chunk], len): copies `len` bytes starting at
`off`; bytes past the end of the modelled buffer are represented as 0
(uninitialised buffer tails are never copied in reachable states). -/
def memcpyFrom (src : List Nat) (off len : Nat) : List Nat :=
  (List.range len).map (fun t => src.getD (off + t) 0)

/-- The do-while loop of ntfs_read_system_compressed_data (lines 650-670),
with an explicit fuel bound on the number of iterations; in every reachable
execution each iteration copies at least one byte, so fuel = count never
runs out.  Returns the final context and the bytes written to `buf`. -/
def read_loop : Nat → DCtx → Nat → Nat → Nat → DCtx × List Nat
  | 0, c, _, _, _ => (c, [])
  | fuel + 1, c, chunk_idx, off_in_chunk, remaining =>
    let clen := chunkUncompLen c chunk_idx
    let len_to_copy := min remaining (clen - off_in_chunk)
    match get_chunk_data c chunk_idx with
    | (c1, none) => (c1, [])
    | (c1, some chunk) =>
      let copied := memcpyFrom chunk off_in_chunk len_to_copy
      if remaining = len_to_copy then (c1, copied)
      else
        let r := read_loop fuel c1 (chunk_idx + 1) 0 (remaining - len_to_copy)
        (r.1, copied ++ r.2)

/-- errno values the modelled code distinguishes; `ereadfail` stands for
whatever errno an underlying NTFS attribute read failure left behind
(an I/O-class error, not EOPNOTSUPP). -/
inductive Errno
  | einval
  | eopnotsupp
  | ereadfail
deriving DecidableEq

/-- Result of the read engine: final context (unchanged slot on the EINVAL
path), the C return value, the bytes delivered into `buf`, and the errno the
engine itself set at the entry check (deeper errnos are not tracked here). -/
structure ReadResult where
  rctx : Option DCtx
  ret : Int
  bytes : List Nat
  errno : Option Errno

/-- ntfs_read_system_compressed_data (lines 622-673). -/
def ntfs_read_system_compressed_data (octx : Option DCtx) (pos : Int) (count : Nat) :
    ReadResult :=
  match octx with
  | none => ⟨none, -1, [], some .einval⟩
  | some c =>
    if pos < 0 then ⟨some c, -1, [], some .einval⟩
    else
      let offset := pos.toNat
      if c.uncompressed_size ≤ offset then ⟨some c, 0, [], none⟩
      else
        let cnt := min count (c.uncompressed_size - offset)
        if cnt = 0 then ⟨some c, 0, [], none⟩
        else
          let r := read_loop cnt c (offset >>> c.chunk_order)
                     (offset &&& (chunkSizeOf c - 1)) cnt
          ⟨some r.1, if r.2.length = 0 then -1 else (r.2.length : Int), r.2, none⟩

/-! ## Format probe (get_compression_format, lines 244-298) -/

/-- IO_REPARSE_TAG_WOF, from the ntfs-3g layout headers the code includes. -/
def IO_REPARSE_TAG_WOF : Nat := 0x80000017

/-- little-endian field of width `w` at byte offset `off` of a blob. -/
def le_at (bs : List Nat) (off w : Nat) : Nat := le_decode ((bs.drop off).take w)

/-- The NTFS inode as the probe sees it: the FILE_ATTR_REPARSE_POINT flag,
the result of ntfs_attr_readall on the reparse attribute (`none` models a
read failure, which leaves an I/O-class errno), and the unnamed-stream data
size. -/
structure NInode where
  has_reparse_point_flag : Bool
  reparse_attr : Option (List Nat)
  data_size : Nat

/-- get_compression_format: checks the reparse-point flag, obtains the blob
(caller-supplied, with rpbuflen = sizeof(REPARSE_POINT) +
reparse_data_length, or read from the inode), and matches the
WOF_FILE_PROVIDER_REPARSE_POINT_V1 signature.  Field layout: reparse_tag at
byte 0 (le32), reparse_data_length at 4 (le16), wof.version at 8,
wof.provider at 12, file.version at 16, file.compression_format at 20; the
fixed record is 24 bytes.  Success returns the compression format. -/
def get_compression_format (ni : Option NInode) (reparse : Option (List Nat)) :
    Except Errno Nat :=
  match ni with
  | none => .error .einval
  | some inode =>
    if ¬ inode.has_reparse_point_flag then .error .eopnotsupp
    else
      let blob : Option (List Nat × Nat) :=
        match reparse with
        | some rp => some (rp, 8 + le_at rp 4 2)
        | none => inode.reparse_attr.map (fun rp => (rp, rp.length))
      match blob with
      | none => .error .ereadfail
      | some rpl =>
        if 24 ≤ rpl.2 ∧ le_at rpl.1 0 4 = IO_REPARSE_TAG_WOF ∧
           le_at rpl.1 8 4 = 1 ∧ le_at rpl.1 12 4 = 2 ∧ le_at rpl.1 16 4 = 1 ∧
           (le_at rpl.1 20 4 = 0 ∨ le_at rpl.1 20 4 = 2 ∨
            le_at rpl.1 20 4 = 3 ∨ le_at rpl.1 20 4 = 1)
        then .ok (le_at rpl.1 20 4)
        else .error .eopnotsupp

/-! ## The plugin read callback (plugin.c, compressed_read, lines 104-115) -/

/-- Parameter count of ntfs_read_system_compressed_data: its definition at
system_compression.c line 622 and its declaration at system_compression.h
lines 40-42 both take (ctx, pos, count, buf). -/
def ntfs_read_system_compressed_data_paramCount : Nat := 4

/-- Argument count at the call in plugin.c line 110: the call passes
(DECOMPRESSION_CTX(fi), ni, offset, size, buf) - an extra `ni` between the
context and the file position. -/
def compressed_read_engine_argCount : Nat := 5

/-! ## The on-disk file model and well-formedness

A system-compressed file is described by its chunk order, uncompressed size
and the list of per-chunk stored byte strings; `buildData` lays out the
WofCompressedData stream exactly as documented in system_compression.c
lines 41-52: a table of `num_chunks - 1` little-endian entries, each the
offset of the corresponding chunk from the end of the table, followed by
the stored chunks concatenated in order. -/

/-- cumulative stored length of the first `i` chunks. -/
def cum (L : List (List Nat)) (i : Nat) : Nat := ((L.take i).map List.length).sum

/-- the chunk offset table: entry `j` (0-based) holds the offset of chunk
`j+1` from the end of the table; the first chunk has no entry. -/
def tableBytes (w : Nat) (L : List (List Nat)) : List Nat :=
  ((List.range (L.length - 1)).map (fun j => le_encode w (cum L (j + 1)))).flatten

/-- the full WofCompressedData stream: chunk table then stored chunks. -/
def buildData (w : Nat) (L : List (List Nat)) : List Nat := tableBytes w L ++ L.flatten

structure SCFile where
  chunk_order : Nat
  uncompressed_size : Nat
  stored : List (List Nat)

/-- the chunk size, 1 << chunk_order. -/
def SCFile.cs (f : SCFile) : Nat := 2 ^ f.chunk_order

/-- the number of chunks, ceil(uncompressed_size / chunk_size). -/
def SCFile.n (f : SCFile) : Nat := (f.uncompressed_size + f.cs - 1) / f.cs

/-- on-disk chunk-table entry width in bytes: 4 below 4 GiB, else 8. -/
def SCFile.w (f : SCFile) : Nat := if f.uncompressed_size ≤ U32 - 1 then 4 else 8

/-- offset of chunk `i` from the end of the chunk table. -/
def SCFile.e (f : SCFile) (i : Nat) : Nat := cum f.stored i

/-- byte length of the chunk table. -/
def SCFile.tableLen (f : SCFile) : Nat := (f.n - 1) * f.w

/-- the stream contents of the file. -/
def SCFile.data (f : SCFile) : List Nat := buildData f.w f.stored

/-- stored (on-disk) size of chunk `i`. -/
def storedLen (f : SCFile) (i : Nat) : Nat := (f.stored.getD i []).length

/-- physical offset of chunk `i` inside the WofCompressedData stream. -/
def specOff (f : SCFile) (i : Nat) : Nat := f.tableLen + f.e i

/-- uncompressed size of chunk `i`: chunk_size, except the last chunk which
holds whatever remains. -/
def uncompSize (f : SCFile) (i : Nat) : Nat :=
  if i = f.n - 1 then (f.uncompressed_size - 1) % f.cs + 1 else f.cs

/-- the decompressed contents of chunk `i`: stored bytes verbatim when the
stored size equals the uncompressed size, else the codec's output. -/
def chunkPlain (f : SCFile) (codec : List Nat → Nat → Option (List Nat)) (i : Nat) :
    List Nat :=
  if storedLen f i = uncompSize f i then f.stored.getD i []
  else (codec (f.stored.getD i []) (uncompSize f i)).getD []

/-- reference whole-file decompression: each chunk decompressed
independently and concatenated in order. -/
def referenceDecomp (f : SCFile) (codec : List Nat → Nat → Option (List Nat)) :
    List Nat :=
  ((List.range f.n).map (chunkPlain f codec)).flatten

/-- well-formed system-compressed file with respect to a codec: a valid
chunk order (the four formats give orders 12-15), a size that fits the s64
the code reads it from, one stored string per chunk, every stored size in
[1, uncompressed chunk size], and the codec succeeding with output of
exactly the uncompressed chunk size on every chunk stored compressed. -/
def WF (f : SCFile) (codec : List Nat → Nat → Option (List Nat)) : Prop :=
  12 ≤ f.chunk_order ∧ f.chunk_order ≤ 15 ∧
  f.uncompressed_size < 2 ^ 63 ∧
  f.stored.length = f.n ∧
  ∀ i, i < f.n →
    1 ≤ storedLen f i ∧ storedLen f i ≤ uncompSize f i ∧
    (storedLen f i ≠ uncompSize f i →
      codec (f.stored.getD i []) (uncompSize f i) = some (chunkPlain f codec i) ∧
      (chunkPlain f codec i).length = uncompSize f i)

/-- the context is open on file `f` with codec `codec` (the fields the
constructor snapshots from the volume agree with the file). -/
def fileMatch (c : DCtx) (f : SCFile) (codec : List Nat → Nat → Option (List Nat)) :
    Prop :=
  c.data = f.data ∧ c.uncompressed_size = f.uncompressed_size ∧
  c.chunk_order = f.chunk_order ∧ c.codec = codec

/-- number of chunks whose offsets a refill starting at `base` caches (the
extra end entry is at index `wlen`). -/
def wlen (f : SCFile) (base : Nat) : Nat := min (NUM_CHUNK_OFFSETS - 1) (f.n - base)

/-- chunk-offset-cache consistency: empty, or the window base is a valid
chunk whose cached offsets are the table-relative chunk offsets minus the
base chunk's, with base_chunk_offset the base chunk's physical offset. -/
def cacheOK (f : SCFile) (c : DCtx) : Prop :=
  c.base_chunk_idx = INVALID_CHUNK_INDEX ∨
  (c.base_chunk_idx < f.n ∧
   c.base_chunk_offset = specOff f c.base_chunk_idx ∧
   ∀ k, k ≤ wlen f c.base_chunk_idx →
     c.chunk_offsets.getD k 0 = f.e (c.base_chunk_idx + k) - f.e c.base_chunk_idx)

/-- single-chunk-cache consistency: the cached index is INVALID unless the
cached buffer holds that chunk's fully decompressed bytes. -/
def chunkCacheOK (f : SCFile) (codec : List Nat → Nat → Option (List Nat))
    (c : DCtx) : Prop :=
  c.cached_chunk_idx = INVALID_CHUNK_INDEX ∨
  (c.cached_chunk_idx < f.n ∧ c.cached_chunk = chunkPlain f codec c.cached_chunk_idx)

/-! ## Arithmetic and list helper lemmas -/

theorem mod64_eq_of_lt {a : Nat} (h : a < U64) : a % U64 = a := Nat.mod_eq_of_lt h

theorem sub64_eq {a b : Nat} (ha : a < U64) (hb : b ≤ a) : sub64 a b = a - b := by
  have hb64 : b < U64 := lt_of_le_of_lt hb ha
  unfold sub64
  rw [Nat.mod_eq_of_lt hb64]
  have : a + U64 - b = (a - b) + U64 := by omega
  rw [this, Nat.add_mod_right, Nat.mod_eq_of_lt (by omega)]

theorem sub32_eq {a b : Nat} (ha : a < U32) (hb : b ≤ a) : sub32 a b = a - b := by
  have hb32 : b < U32 := lt_of_le_of_lt hb ha
  unfold sub32
  rw [Nat.mod_eq_of_lt hb32]
  have : a + U32 - b = (a - b) + U32 := by omega
  rw [this, Nat.add_mod_right, Nat.mod_eq_of_lt (by omega)]

theorem le_encode_length (w v : Nat) : (le_encode w v).length = w := by
  simp [le_encode]

theorem le_encode_succ (w v : Nat) :
    le_encode (w + 1) v = v % 256 :: le_encode w (v / 256) := by
  unfold le_encode
  rw [List.range_succ_eq_map]
  simp only [List.map_cons, List.map_map, Function.comp, pow_zero, Nat.div_one]
  congr 1
  apply List.map_congr_left
  intro k _
  simp only [Function.comp_apply, Nat.succ_eq_add_one, pow_succ, Nat.div_div_eq_div_mul]
  ring_nf

theorem le_decode_encode {w v : Nat} (h : v < 256 ^ w) :
    le_decode (le_encode w v) = v := by
  induction w generalizing v with
  | zero =>
    simp [le_encode, le_decode] at h ⊢
    omega
  | succ w ih =>
    rw [le_encode_succ]
    have hlt : v / 256 < 256 ^ w := by
      rw [Nat.div_lt_iff_lt_mul (by norm_num)]
      calc v < 256 ^ (w + 1) := h
        _ = 256 ^ w * 256 := by ring
    unfold le_decode
    simp only [List.foldr_cons]
    have := ih hlt
    unfold le_decode at this
    rw [this]
    omega

theorem cum_zero (L : List (List Nat)) : cum L 0 = 0 := by simp [cum]

theorem cum_succ {L : List (List Nat)} {i : Nat} (h : i < L.length) :
    cum L (i + 1) = cum L i + (L.getD i []).length := by
  have hm : i < (L.map List.length).length := by simpa using h
  unfold cum
  rw [List.map_take, List.map_take, List.take_succ, List.getElem?_eq_getElem hm]
  simp [List.getD_eq_getElem?_getD, List.getElem?_eq_getElem h]

theorem cum_mono (L : List (List Nat)) {i j : Nat} (h : i ≤ j) : cum L i ≤ cum L j := by
  unfold cum
  apply List.Sublist.sum_le_sum
  · exact (List.take_sublist_take_left _ h).map _
  · intro x hx
    simp at hx
    omega

theorem cum_full (L : List (List Nat)) : cum L L.length = L.flatten.length := by
  simp [cum, List.length_flatten]

theorem flatten_drop_cum (L : List (List Nat)) (i : Nat) :
    L.flatten.drop (cum L i) = (L.drop i).flatten := by
  induction L generalizing i with
  | nil => simp [cum]
  | cons x t ih =>
    cases i with
    | zero => simp [cum]
    | succ i =>
      have hc : cum (x :: t) (i + 1) = x.length + cum t i := by
        simp [cum, List.take_succ_cons]
      rw [hc]
      simp only [List.flatten_cons, List.drop_succ_cons]
      rw [List.drop_append]
      exact ih i

theorem flatten_entry {L : List (List Nat)} {i : Nat} (h : i < L.length) :
    (L.flatten.drop (cum L i)).take (L.getD i []).length = L.getD i [] := by
  rw [flatten_drop_cum, List.drop_eq_getElem_cons h]
  simp only [List.flatten_cons]
  rw [List.getD_eq_getElem?_getD, List.getElem?_eq_getElem h]
  simp [List.take_left]

theorem getD_map_range {g : Nat → Nat} {m j : Nat} (h : j < m) (d : Nat) :
    ((List.range m).map g).getD j d = g j := by
  rw [List.getD_eq_getElem?_getD]
  simp [List.getElem?_map, List.getElem?_range h]

theorem getD_map_range_lists {g : Nat → List Nat} {m j : Nat} (h : j < m)
    (d : List Nat) : ((List.range m).map g).getD j d = g j := by
  rw [List.getD_eq_getElem?_getD]
  simp [List.getElem?_map, List.getElem?_range h]

theorem cum_map_range_uniform {g : Nat → List Nat} {w m : Nat}
    (hg : ∀ j, j < m → (g j).length = w) :
    ∀ j, j ≤ m → cum ((List.range m).map g) j = j * w := by
  intro j hj
  induction j with
  | zero => simp [cum]
  | succ j ih =>
    have hjm : j < m := by omega
    rw [cum_succ (by simpa using hjm), ih (by omega),
        getD_map_range_lists hjm, hg j hjm]
    ring

theorem tableBytes_length (w : Nat) (L : List (List Nat)) :
    (tableBytes w L).length = (L.length - 1) * w := by
  unfold tableBytes
  rw [List.length_flatten, List.map_map]
  have : (List.map (List.length ∘ fun j => le_encode w (cum L (j + 1)))
      (List.range (L.length - 1))) = List.map (fun _ => w) (List.range (L.length - 1)) := by
    apply List.map_congr_left
    intro j _
    simp [le_encode_length]
  rw [this]
  simp [List.map_const, List.sum_replicate, smul_eq_mul, Nat.mul_comm]

theorem tableBytes_entry {w : Nat} {L : List (List Nat)} {j : Nat}
    (h : j < L.length - 1) :
    ((tableBytes w L).drop (j * w)).take w = le_encode w (cum L (j + 1)) := by
  unfold tableBytes
  have hcum : cum ((List.range (L.length - 1)).map (fun j => le_encode w (cum L (j + 1)))) j
      = j * w := by
    exact cum_map_range_uniform (fun t _ => le_encode_length w _) j (by omega)
  have hlen : j < ((List.range (L.length - 1)).map (fun j => le_encode w (cum L (j + 1)))).length := by
    simpa using h
  have := flatten_entry hlen
  rw [hcum] at this
  rw [getD_map_range_lists h] at this
  rw [le_encode_length] at this
  exact this

theorem memcpyFrom_eq {src : List Nat} {off len : Nat} (h : off + len ≤ src.length) :
    memcpyFrom src off len = (src.drop off).take len := by
  apply List.ext_getElem
  · simp [memcpyFrom]
    omega
  · intro i h1 h2
    simp [memcpyFrom] at h1
    simp [memcpyFrom, List.getD_eq_getElem?_getD,
      List.getElem?_eq_getElem (show off + i < src.length by omega)]

theorem memcpyFrom_length (src : List Nat) (off len : Nat) :
    (memcpyFrom src off len).length = len := by
  simp [memcpyFrom]

/-! ## Facts about the file description -/

theorem SCFile.cs_pos (f : SCFile) : 0 < f.cs := Nat.pos_pow_of_pos _ (by norm_num)

theorem SCFile.n_eq {f : SCFile} (h : 1 ≤ f.uncompressed_size) :
    f.n = (f.uncompressed_size - 1) / f.cs + 1 := by
  unfold SCFile.n
  have hcs := f.cs_pos
  have : f.uncompressed_size + f.cs - 1 = (f.uncompressed_size - 1) + f.cs := by omega
  rw [this, Nat.add_div_right _ hcs]

theorem SCFile.n_pos {f : SCFile} (h : 1 ≤ f.uncompressed_size) : 1 ≤ f.n := by
  rw [SCFile.n_eq h]
  exact Nat.le_add_left 1 _

theorem SCFile.us_pos_of_n_pos {f : SCFile} (h : 1 ≤ f.n) :
    1 ≤ f.uncompressed_size := by
  by_contra hc
  have h0 : f.uncompressed_size = 0 := by omega
  have hcs := f.cs_pos
  unfold SCFile.n at h
  rw [h0] at h
  simp at h
  rw [Nat.div_eq_of_lt (by omega)] at h
  omega

theorem SCFile.n_le_us {f : SCFile} : f.n ≤ f.uncompressed_size := by
  rcases Nat.eq_zero_or_pos f.uncompressed_size with h | h
  · unfold SCFile.n
    rw [h]
    have hcs := f.cs_pos
    have hz : (0 + f.cs - 1) / f.cs = 0 := Nat.div_eq_of_lt (by omega)
    rw [hz]
  · rw [SCFile.n_eq h]
    have h1 : (f.uncompressed_size - 1) / f.cs ≤ f.uncompressed_size - 1 :=
      Nat.div_le_self _ _
    omega

theorem SCFile.pred_n_mul {f : SCFile} (h : 1 ≤ f.uncompressed_size) :
    (f.n - 1) * f.cs + (f.uncompressed_size - 1) % f.cs = f.uncompressed_size - 1 := by
  rw [SCFile.n_eq h]
  simp only [Nat.add_sub_cancel]
  rw [Nat.mul_comm]
  exact Nat.div_add_mod _ _

theorem uncompSize_pos (f : SCFile) (i : Nat) : 0 < uncompSize f i := by
  unfold uncompSize
  split
  · omega
  · exact f.cs_pos

theorem uncompSize_le_cs (f : SCFile) (i : Nat) : uncompSize f i ≤ f.cs := by
  unfold uncompSize
  have hcs := f.cs_pos
  have := Nat.mod_lt (f.uncompressed_size - 1) hcs
  split <;> omega

theorem sum_uncompSize {f : SCFile} (h : 1 ≤ f.uncompressed_size) :
    ((List.range f.n).map (uncompSize f)).sum = f.uncompressed_size := by
  have hn := SCFile.n_pos h
  have hnn : f.n = (f.n - 1) + 1 := by omega
  rw [show ((List.range f.n).map (uncompSize f)).sum
      = ((List.range ((f.n - 1) + 1)).map (uncompSize f)).sum from by rw [← hnn]]
  rw [List.sum_range_succ]
  have hmap : (List.range (f.n - 1)).map (uncompSize f)
      = (List.range (f.n - 1)).map (fun _ => f.cs) := by
    apply List.map_congr_left
    intro j hj
    simp only [List.mem_range] at hj
    unfold uncompSize
    rw [if_neg (by omega)]
  rw [hmap]
  have hconst : ((List.range (f.n - 1)).map (fun _ => f.cs)).sum = (f.n - 1) * f.cs := by
    simp [List.map_const', Nat.mul_comm]
  rw [hconst]
  unfold uncompSize
  rw [if_pos rfl]
  have := SCFile.pred_n_mul h
  have hmod := Nat.mod_lt (f.uncompressed_size - 1) f.cs_pos
  omega

theorem e_succ {f : SCFile} {i : Nat} (h : i < f.stored.length) :
    f.e (i + 1) = f.e i + storedLen f i := cum_succ h

theorem e_mono (f : SCFile) {i j : Nat} (h : i ≤ j) : f.e i ≤ f.e j :=
  cum_mono _ h

theorem WF_stored_bounds {f : SCFile} {codec : List Nat → Nat → Option (List Nat)}
    (hWF : WF f codec) {i : Nat} (h : i < f.n) :
    1 ≤ storedLen f i ∧ storedLen f i ≤ uncompSize f i :=
  ⟨(hWF.2.2.2.2 i h).1, (hWF.2.2.2.2 i h).2.1⟩

theorem e_diff_le {f : SCFile} {codec : List Nat → Nat → Option (List Nat)}
    (hWF : WF f codec) {i : Nat} :
    ∀ k, i + k ≤ f.n → f.e (i + k) ≤ f.e i + k * f.cs := by
  intro k
  induction k with
  | zero => simp
  | succ k ih =>
    intro h
    have hik : i + k < f.n := by omega
    have hsl : i + k < f.stored.length := by rw [hWF.2.2.2.1]; exact hik
    rw [show i + (k + 1) = (i + k) + 1 from by omega, e_succ hsl]
    have h1 := (WF_stored_bounds hWF hik).2
    have h2 := uncompSize_le_cs f (i + k)
    have h3 := ih (by omega)
    have : (k + 1) * f.cs = k * f.cs + f.cs := by ring
    omega

theorem sum_range_le {u : Nat → Nat} : ∀ {j n : Nat}, j ≤ n →
    ((List.range j).map u).sum ≤ ((List.range n).map u).sum := by
  intro j n h
  induction n with
  | zero =>
    have : j = 0 := by omega
    rw [this]
  | succ n ih =>
    rcases Nat.lt_or_ge j (n + 1) with h1 | h1
    · rw [List.sum_range_succ]
      exact le_trans (ih (by omega)) (Nat.le_add_right _ _)
    · have : j = n + 1 := by omega
      rw [this]

theorem e_le_sum {f : SCFile} {codec : List Nat → Nat → Option (List Nat)}
    (hWF : WF f codec) : ∀ j, j ≤ f.n →
    f.e j ≤ ((List.range j).map (uncompSize f)).sum := by
  intro j
  induction j with
  | zero => simp [SCFile.e, cum_zero]
  | succ j ih =>
    intro h
    have hj : j < f.n := by omega
    have hsl : j < f.stored.length := by rw [hWF.2.2.2.1]; exact hj
    rw [e_succ hsl, List.sum_range_succ]
    have h1 := (WF_stored_bounds hWF hj).2
    have h2 := ih (by omega)
    omega

theorem e_le_us {f : SCFile} {codec : List Nat → Nat → Option (List Nat)}
    (hWF : WF f codec) {j : Nat} (h : j ≤ f.n) :
    f.e j ≤ f.uncompressed_size := by
  rcases Nat.eq_zero_or_pos f.uncompressed_size with h0 | h0
  · have hn0 : f.n = 0 := by
      by_contra hc
      have := SCFile.us_pos_of_n_pos (f := f) (by omega)
      omega
    have : j = 0 := by omega
    rw [this]
    simp [SCFile.e, cum_zero]
  · calc f.e j ≤ ((List.range j).map (uncompSize f)).sum := e_le_sum hWF j h
      _ ≤ ((List.range f.n).map (uncompSize f)).sum := sum_range_le h
      _ = f.uncompressed_size := sum_uncompSize h0

theorem data_length {f : SCFile} {codec : List Nat → Nat → Option (List Nat)}
    (hWF : WF f codec) : f.data.length = f.tableLen + f.e f.n := by
  unfold SCFile.data buildData SCFile.tableLen
  rw [List.length_append, tableBytes_length, hWF.2.2.2.1]
  have : f.e f.n = f.stored.flatten.length := by
    unfold SCFile.e
    rw [← hWF.2.2.2.1]
    exact cum_full _
  rw [this]

theorem chunkSizeOf_eq {c : DCtx} {f : SCFile} {codec : List Nat → Nat → Option (List Nat)}
    (hm : fileMatch c f codec) : chunkSizeOf c = f.cs := by
  unfold chunkSizeOf SCFile.cs
  rw [hm.2.2.1, Nat.shiftLeft_eq, Nat.one_mul]

theorem numChunks_eq {c : DCtx} {f : SCFile} {codec : List Nat → Nat → Option (List Nat)}
    (hm : fileMatch c f codec) : numChunks c = f.n := by
  unfold numChunks SCFile.n
  rw [chunkSizeOf_eq hm, hm.2.1, hm.2.2.1, Nat.shiftRight_eq_div_pow]
  rfl

theorem entryWidth_eq {c : DCtx} {f : SCFile} {codec : List Nat → Nat → Option (List Nat)}
    (hm : fileMatch c f codec) : (1 : Nat) <<< entryShift c = f.w := by
  unfold entryShift SCFile.w
  rw [hm.2.1]
  split <;> rfl

theorem chunkUncompLen_eq {c : DCtx} {f : SCFile} {codec : List Nat → Nat → Option (List Nat)}
    (hm : fileMatch c f codec) {i : Nat} (hn : i < f.n)
    (hus : f.uncompressed_size < U64) : chunkUncompLen c i = uncompSize f i := by
  have hn1 : 1 ≤ f.n := by omega
  have husp : 1 ≤ f.uncompressed_size := SCFile.us_pos_of_n_pos hn1
  have hnle : f.n ≤ f.uncompressed_size := SCFile.n_le_us
  unfold chunkUncompLen uncompSize
  rw [numChunks_eq hm, sub64_eq (by omega) (by omega), hm.2.1,
      sub64_eq (by omega) (by omega), chunkSizeOf_eq hm]
  unfold SCFile.cs
  rw [Nat.and_pow_two_sub_one_eq_mod]

theorem SCFile.w_cases (f : SCFile) : f.w = 4 ∨ f.w = 8 := by
  unfold SCFile.w
  split
  · exact Or.inl rfl
  · exact Or.inr rfl

theorem e_lt_pow {f : SCFile} {codec : List Nat → Nat → Option (List Nat)}
    (hWF : WF f codec) {j : Nat} (hj : j ≤ f.n) : f.e j < 256 ^ f.w := by
  have h1 := e_le_us hWF hj
  have h2 := hWF.2.2.1
  unfold SCFile.w
  split
  · have : (256 : Nat) ^ 4 = U32 := by norm_num [U32]
    rw [this]
    unfold U32 at *
    omega
  · have : (256 : Nat) ^ 8 = U64 := by norm_num [U64]
    rw [this]
    unfold U64
    omega

theorem tableLen_le_us {f : SCFile} {codec : List Nat → Nat → Option (List Nat)}
    (hWF : WF f codec) : f.tableLen ≤ f.uncompressed_size := by
  rcases Nat.eq_zero_or_pos f.uncompressed_size with h0 | h0
  · have hn0 : f.n = 0 := by
      by_contra hc
      have := SCFile.us_pos_of_n_pos (f := f) (by omega)
      omega
    unfold SCFile.tableLen
    rw [hn0]
    simp
  · unfold SCFile.tableLen
    have hw : f.w ≤ 8 := by rcases f.w_cases with h | h <;> omega
    have hcs : 4096 ≤ f.cs := by
      have := hWF.1
      calc (4096 : Nat) = 2 ^ 12 := by norm_num
        _ ≤ 2 ^ f.chunk_order := Nat.pow_le_pow_right (by norm_num) this
        _ = f.cs := rfl
    have hn1 : f.n - 1 = (f.uncompressed_size - 1) / f.cs := by
      rw [SCFile.n_eq h0]
      exact Nat.add_sub_cancel _ _
    have h1 : (f.uncompressed_size - 1) / f.cs ≤ (f.uncompressed_size - 1) / 8 := by
      apply Nat.div_le_div_left (by omega) (by norm_num)
    calc (f.n - 1) * f.w ≤ ((f.uncompressed_size - 1) / 8) * 8 := by
          rw [hn1]
          exact Nat.mul_le_mul h1 hw
      _ ≤ f.uncompressed_size - 1 := Nat.div_mul_le_self _ _
      _ ≤ f.uncompressed_size := by omega

theorem data_length_le {f : SCFile} {codec : List Nat → Nat → Option (List Nat)}
    (hWF : WF f codec) : f.data.length ≤ 2 * f.uncompressed_size := by
  rw [data_length hWF]
  have h1 := tableLen_le_us hWF
  have h2 := e_le_us hWF (le_refl f.n)
  omega

theorem table_read {f : SCFile} {codec : List Nat → Nat → Option (List Nat)}
    (hWF : WF f codec) {first n2 : Nat} (h : first + n2 ≤ f.n - 1) :
    (ntfs_attr_pread f.data (first * f.w) (n2 * f.w)).length = n2 * f.w ∧
    ∀ j, j < n2 →
      le_decode (((ntfs_attr_pread f.data (first * f.w) (n2 * f.w)).drop (j * f.w)).take f.w)
        = f.e (first + j + 1) := by
  have htb : (tableBytes f.w f.stored).length = (f.n - 1) * f.w := by
    rw [tableBytes_length, hWF.2.2.2.1]
  have hoff : first * f.w + n2 * f.w ≤ (f.n - 1) * f.w := by
    calc first * f.w + n2 * f.w = (first + n2) * f.w := by ring
      _ ≤ (f.n - 1) * f.w := Nat.mul_le_mul_right _ h
  have hdrop : f.data.drop (first * f.w)
      = (tableBytes f.w f.stored).drop (first * f.w) ++ f.stored.flatten := by
    unfold SCFile.data buildData
    exact List.drop_append_of_le_length (by omega)
  have hbuf : ntfs_attr_pread f.data (first * f.w) (n2 * f.w)
      = ((tableBytes f.w f.stored).drop (first * f.w)).take (n2 * f.w) := by
    unfold ntfs_attr_pread
    rw [hdrop]
    exact List.take_append_of_le_length (by simp [htb]; omega)
  constructor
  · rw [hbuf]
    simp [htb]
    omega
  · intro j hj
    rw [hbuf]
    have h1 : (((tableBytes f.w f.stored).drop (first * f.w)).take (n2 * f.w)).drop (j * f.w)
        = (((tableBytes f.w f.stored).drop (first * f.w)).drop (j * f.w)).take (n2 * f.w - j * f.w) := by
      rw [List.drop_take]
    rw [h1, List.drop_drop]
    have h2 : first * f.w + j * f.w = (first + j) * f.w := by ring
    rw [h2, List.take_take]
    have h3 : min f.w (n2 * f.w - j * f.w) = f.w := by
      have : f.w + j * f.w ≤ n2 * f.w := by
        have : (j + 1) * f.w ≤ n2 * f.w := Nat.mul_le_mul_right _ (by omega)
        calc f.w + j * f.w = (j + 1) * f.w := by ring
          _ ≤ n2 * f.w := this
      omega
    rw [h3]
    have h4 : first + j < f.stored.length - 1 := by
      rw [hWF.2.2.2.1]
      omega
    rw [tableBytes_entry h4]
    exact le_decode_encode (e_lt_pow hWF (by rw [← hWF.2.2.2.1]; omega))

theorem range_succ_eq_append (n : Nat) : List.range (n + 1) = List.range n ++ [n] := by
  simpa using List.range_succ n

theorem map_range_succ_cons (g : Nat → Nat) (m : Nat) :
    (List.range (m + 1)).map g = g 0 :: (List.range m).map (fun j => g (j + 1)) := by
  rw [List.range_succ_eq_map]
  simp [List.map_map, Function.comp]

theorem us_lt_U64 {f : SCFile} {codec : List Nat → Nat → Option (List Nat)}
    (hWF : WF f codec) : f.uncompressed_size < U64 := by
  have := hWF.2.2.1
  unfold U64
  omega

theorem n_lt_U64 {f : SCFile} {codec : List Nat → Nat → Option (List Nat)}
    (hWF : WF f codec) : f.n < U64 := by
  have h1 : f.n ≤ f.uncompressed_size := SCFile.n_le_us
  have := us_lt_U64 hWF
  omega

theorem shl_eq_mul {c : DCtx} {f : SCFile} {codec : List Nat → Nat → Option (List Nat)}
    (hm : fileMatch c f codec) (x : Nat) : x <<< entryShift c = x * f.w := by
  conv_lhs => rw [Nat.shiftLeft_eq]
  rw [← entryWidth_eq hm, Nat.shiftLeft_eq, Nat.one_mul]

theorem cs_le_max {f : SCFile} {codec : List Nat → Nat → Option (List Nat)}
    (hWF : WF f codec) : f.cs ≤ 2 ^ 15 := by
  unfold SCFile.cs
  exact Nat.pow_le_pow_right (by norm_num) hWF.2.1

theorem span_lt_U32 {f : SCFile} {codec : List Nat → Nat → Option (List Nat)}
    (hWF : WF f codec) {i k : Nat} (h : i + k ≤ f.n) (hk : k ≤ 128) :
    f.e (i + k) - f.e i < U32 := by
  have h1 := e_diff_le hWF k h
  have h2 := cs_le_max hWF
  have : k * f.cs ≤ 128 * 2 ^ 15 := Nat.mul_le_mul hk h2
  unfold U32
  omega

theorem wlen_pos {f : SCFile} {i : Nat} (hi : i < f.n) : 1 ≤ wlen f i := by
  unfold wlen NUM_CHUNK_OFFSETS
  have h1 : (1 : Nat) ≤ 128 - 1 := by norm_num
  have h2 : 1 ≤ f.n - i := by omega
  exact le_min h1 h2

theorem wlen_le {f : SCFile} (i : Nat) : wlen f i ≤ 127 := by
  unfold wlen NUM_CHUNK_OFFSETS
  exact min_le_left _ _

theorem wlen_le_sub {f : SCFile} (i : Nat) : wlen f i ≤ f.n - i := by
  unfold wlen
  exact min_le_right _ _

theorem rwEndChunk_eq {c : DCtx} {f : SCFile} {codec : List Nat → Nat → Option (List Nat)}
    (hWF : WF f codec) (hm : fileMatch c f codec) {i : Nat} (hi : i < f.n) :
    rwEndChunk c i = i + wlen f i := by
  unfold rwEndChunk wlen
  rw [numChunks_eq hm, sub64_eq (n_lt_U64 hWF) (le_of_lt hi)]

theorem rwNumEntries_eq {c : DCtx} {f : SCFile} {codec : List Nat → Nat → Option (List Nat)}
    (hWF : WF f codec) (hm : fileMatch c f codec) {i : Nat} (hi : i < f.n) :
    rwNumEntries c i = (if i + wlen f i = f.n then wlen f i else wlen f i + 1) -
      (if i = 0 then 1 else 0) := by
  have hw1 := wlen_pos hi
  have hw2 := wlen_le (f := f) i
  have hwU : wlen f i < U64 := by unfold U64; omega
  unfold rwNumEntries
  rw [rwEndChunk_eq hWF hm hi, numChunks_eq hm]
  simp only [Nat.add_sub_cancel_left]
  by_cases h0 : i = 0
  · rw [if_pos h0, if_pos h0, sub64_eq hwU hw1]
    by_cases hend : i + wlen f i = f.n
    · rw [if_neg (by omega), if_pos hend]
    · rw [if_pos (by omega), if_neg hend]
      rw [Nat.mod_eq_of_lt (by unfold U64; omega)]
      omega
  · rw [if_neg h0, if_neg h0]
    by_cases hend : i + wlen f i = f.n
    · rw [if_neg (by omega), if_pos hend]
      omega
    · rw [if_pos (by omega), if_neg hend]
      rw [Nat.mod_eq_of_lt (by unfold U64; omega)]
      omega

theorem SCFile.w_pos (f : SCFile) : 0 < f.w := by
  rcases f.w_cases with h | h <;> omega

theorem rwFirstNE_le {c : DCtx} {f : SCFile} {codec : List Nat → Nat → Option (List Nat)}
    (hWF : WF f codec) (hm : fileMatch c f codec) {i : Nat} (hi : i < f.n) :
    rwFirstEntry i + rwNumEntries c i ≤ f.n - 1 := by
  have h1 := wlen_pos hi
  have h2 := wlen_le_sub (f := f) i
  rw [rwNumEntries_eq hWF hm hi]
  unfold rwFirstEntry
  split_ifs <;> omega

theorem rwBuf_eq {c : DCtx} {f : SCFile} {codec : List Nat → Nat → Option (List Nat)}
    (hWF : WF f codec) (hm : fileMatch c f codec) {i : Nat} (hi : i < f.n) :
    rwBuf c i = ntfs_attr_pread f.data (rwFirstEntry i * f.w)
      (rwNumEntries c i * f.w) ∧
    rwFirstEntry i * f.w < U64 ∧ rwNumEntries c i * f.w < U64 := by
  have hfne := rwFirstNE_le hWF hm hi
  have hw := f.w_pos
  have htl : f.tableLen ≤ f.uncompressed_size := tableLen_le_us hWF
  have husU := us_lt_U64 hWF
  have htldef : f.tableLen = (f.n - 1) * f.w := rfl
  have h1 : rwFirstEntry i * f.w < U64 := by
    have : rwFirstEntry i * f.w ≤ (f.n - 1) * f.w :=
      Nat.mul_le_mul_right _ (by omega)
    omega
  have h2 : rwNumEntries c i * f.w < U64 := by
    have : rwNumEntries c i * f.w ≤ (f.n - 1) * f.w :=
      Nat.mul_le_mul_right _ (by omega)
    omega
  refine ⟨?_, h1, h2⟩
  unfold rwBuf
  rw [hm.1, shl_eq_mul hm, shl_eq_mul hm, Nat.mod_eq_of_lt h1, Nat.mod_eq_of_lt h2]

theorem rwBuf_length {c : DCtx} {f : SCFile} {codec : List Nat → Nat → Option (List Nat)}
    (hWF : WF f codec) (hm : fileMatch c f codec) {i : Nat} (hi : i < f.n) :
    (rwBuf c i).length = (rwNumEntries c i <<< entryShift c) % U64 := by
  obtain ⟨hb, _, h2⟩ := rwBuf_eq hWF hm hi
  rw [hb, shl_eq_mul hm, Nat.mod_eq_of_lt h2,
      (table_read hWF (rwFirstNE_le hWF hm hi)).1]

theorem rwEntry_eq {c : DCtx} {f : SCFile} {codec : List Nat → Nat → Option (List Nat)}
    (hWF : WF f codec) (hm : fileMatch c f codec) {i : Nat} (hi : i < f.n)
    {j : Nat} (hj : j < rwNumEntries c i) :
    rwEntry c i j = f.e (rwFirstEntry i + j + 1) := by
  obtain ⟨hb, _, h2⟩ := rwBuf_eq hWF hm hi
  have hjw : j * f.w < U64 := by
    have : j * f.w ≤ rwNumEntries c i * f.w := Nat.mul_le_mul_right _ (by omega)
    omega
  unfold rwEntry
  rw [hb, shl_eq_mul hm j, Nat.mod_eq_of_lt hjw, shl_eq_mul hm 1, Nat.one_mul]
  exact (table_read hWF (rwFirstNE_le hWF hm hi)).2 j hj

theorem e_zero (f : SCFile) : f.e 0 = 0 := cum_zero _

theorem NE_pos {c : DCtx} {f : SCFile} {codec : List Nat → Nat → Option (List Nat)}
    (hWF : WF f codec) (hm : fileMatch c f codec) {i : Nat} (hi : i < f.n)
    (h0 : i ≠ 0) : 0 < rwNumEntries c i := by
  rw [rwNumEntries_eq hWF hm hi]
  have := wlen_pos hi
  split_ifs <;> omega

theorem rwBase0_eq {c : DCtx} {f : SCFile} {codec : List Nat → Nat → Option (List Nat)}
    (hWF : WF f codec) (hm : fileMatch c f codec) {i : Nat} (hi : i < f.n) :
    rwBase0 c i = f.e i := by
  unfold rwBase0
  by_cases h0 : i = 0
  · rw [if_pos h0, h0, e_zero]
  · rw [if_neg h0, rwEntry_eq hWF hm hi (NE_pos hWF hm hi h0)]
    unfold rwFirstEntry
    rw [if_neg h0]
    congr 1
    omega

theorem rwBase1_eq {c : DCtx} {f : SCFile} {codec : List Nat → Nat → Option (List Nat)}
    (hWF : WF f codec) (hm : fileMatch c f codec) {i : Nat} (hi : i < f.n) :
    rwBase1 c i = specOff f i := by
  have hnU := n_lt_U64 hWF
  have htl : f.tableLen ≤ f.uncompressed_size := tableLen_le_us hWF
  have hei : f.e i ≤ f.uncompressed_size := e_le_us hWF (by omega)
  have hus63 := hWF.2.2.1
  have htldef : f.tableLen = (f.n - 1) * f.w := rfl
  unfold rwBase1
  rw [numChunks_eq hm, sub64_eq hnU (by omega), shl_eq_mul hm, ← htldef,
      Nat.mod_eq_of_lt (show f.tableLen < U64 by unfold U64; omega),
      rwBase0_eq hWF hm hi,
      Nat.mod_eq_of_lt (show f.e i + f.tableLen < U64 by unfold U64; omega)]
  unfold specOff
  omega

theorem sentinel_eq {c : DCtx} {f : SCFile} {codec : List Nat → Nat → Option (List Nat)}
    (hWF : WF f codec) (hm : fileMatch c f codec) {i : Nat} (hi : i < f.n)
    (hend : i + wlen f i = f.n) :
    sub64 (compressedSize c) (rwBase1 c i) % U32 = f.e f.n - f.e i := by
  have hdl : f.data.length = f.tableLen + f.e f.n := data_length hWF
  have hdle := data_length_le hWF
  have hus63 := hWF.2.2.1
  have hein : f.e i ≤ f.e f.n := e_mono f (by omega)
  have hcs : compressedSize c = f.tableLen + f.e f.n := by
    unfold compressedSize
    rw [hm.1, hdl]
  rw [hcs, rwBase1_eq hWF hm hi]
  unfold specOff
  rw [sub64_eq (by unfold U64; omega) (by omega)]
  have hsub : f.tableLen + f.e f.n - (f.tableLen + f.e i) = f.e f.n - f.e i := by omega
  rw [hsub]
  have hspan : f.e f.n - f.e i < U32 := by
    have := span_lt_U32 hWF (i := i) (k := wlen f i) (by omega) (by have := wlen_le (f := f) i; omega)
    rw [hend] at this
    exact this
  exact Nat.mod_eq_of_lt hspan

theorem rwOffs2_eq {c : DCtx} {f : SCFile} {codec : List Nat → Nat → Option (List Nat)}
    (hWF : WF f codec) (hm : fileMatch c f codec) {i : Nat} (hi : i < f.n) :
    rwOffs2 c i = (List.range (wlen f i + 1)).map (fun k => f.e (i + k) - f.e i) := by
  have hw1 := wlen_pos hi
  have hw2 := wlen_le (f := f) i
  have hw3 := wlen_le_sub (f := f) i
  have hNE : rwNumEntries c i = (if i + wlen f i = f.n then wlen f i else wlen f i + 1) -
      (if i = 0 then 1 else 0) := rwNumEntries_eq hWF hm hi
  have hmap : ∀ m, m ≤ rwNumEntries c i →
      (List.range m).map (fun j => sub64 (rwEntry c i j) (rwBase0 c i) % U32)
      = (List.range m).map (fun j => f.e (rwFirstEntry i + j + 1) - f.e i) := by
    intro m hmle
    apply List.map_congr_left
    intro j hj
    simp only [List.mem_range] at hj
    have hjNE : j < rwNumEntries c i := by omega
    rw [rwEntry_eq hWF hm hi hjNE, rwBase0_eq hWF hm hi]
    have hfj : i ≤ rwFirstEntry i + j + 1 := by
      unfold rwFirstEntry
      split_ifs <;> omega
    have hfn : rwFirstEntry i + j + 1 ≤ f.n := by
      have := rwFirstNE_le hWF hm hi
      omega
    have hmono : f.e i ≤ f.e (rwFirstEntry i + j + 1) := e_mono f hfj
    have heU : f.e (rwFirstEntry i + j + 1) < U64 := by
      have h1 := e_le_us hWF hfn
      have := us_lt_U64 hWF
      omega
    rw [sub64_eq heU hmono]
    have hspan : f.e (rwFirstEntry i + j + 1) - f.e i < U32 := by
      have hk : rwFirstEntry i + j + 1 = i + (rwFirstEntry i + j + 1 - i) := by omega
      have := span_lt_U32 hWF (i := i) (k := rwFirstEntry i + j + 1 - i) (by omega)
        (by unfold rwFirstEntry at *; split_ifs at * <;> omega)
      rw [← hk] at this
      exact this
    exact Nat.mod_eq_of_lt hspan
  unfold rwOffs2 rwOffs
  rw [rwEndChunk_eq hWF hm hi, numChunks_eq hm]
  rw [hmap _ (le_refl _), hNE]
  by_cases h0 : i = 0
  · simp only [if_pos h0]
    unfold rwFirstEntry
    simp only [if_pos h0]
    subst h0
    simp only [Nat.zero_add, e_zero, Nat.sub_zero]
    by_cases hend : wlen f 0 = f.n
    · simp only [if_pos hend]
      rw [sentinel_eq hWF hm hi (by omega)]
      simp only [e_zero, Nat.sub_zero]
      rw [map_range_succ_cons (fun k => f.e k) (wlen f 0)]
      simp only [e_zero]
      conv_rhs => rw [show wlen f 0 = wlen f 0 - 1 + 1 from by omega,
        range_succ_eq_append]
      rw [List.map_append]
      simp only [List.map_cons, List.map_nil]
      have hlast : f.e (wlen f 0 - 1 + 1) = f.e f.n := by
        rw [show wlen f 0 - 1 + 1 = wlen f 0 from by omega, hend]
      rw [hlast]
      simp [List.cons_append]
    · simp only [if_neg hend, Nat.add_sub_cancel]
      rw [map_range_succ_cons (fun k => f.e k) (wlen f 0)]
      simp only [e_zero]
      simp [List.cons_append]
  · simp only [if_neg h0, List.nil_append, Nat.sub_zero]
    unfold rwFirstEntry
    simp only [if_neg h0]
    have harith : ∀ j : Nat, i - 1 + j + 1 = i + j := by
      intro j
      omega
    simp only [harith]
    by_cases hend : i + wlen f i = f.n
    · simp only [if_pos hend]
      rw [sentinel_eq hWF hm hi hend]
      conv_rhs => rw [range_succ_eq_append]
      rw [List.map_append]
      simp only [List.map_cons, List.map_nil]
      rw [show i + wlen f i = f.n from hend]
    · simp only [if_neg hend]

theorem refillWindow_eq {c : DCtx} {f : SCFile} {codec : List Nat → Nat → Option (List Nat)}
    (hWF : WF f codec) (hm : fileMatch c f codec) {i : Nat} (hi : i < f.n) :
    refillWindow c i = some { c with
      base_chunk_idx := i
      base_chunk_offset := specOff f i
      chunk_offsets := (List.range (wlen f i + 1)).map (fun k => f.e (i + k) - f.e i) } := by
  unfold refillWindow
  rw [if_neg (show ¬ (rwBuf c i).length ≠ (rwNumEntries c i <<< entryShift c) % U64 by
    rw [rwBuf_length hWF hm hi]
    exact fun h => h rfl)]
  rw [rwBase1_eq hWF hm hi, rwOffs2_eq hWF hm hi]

theorem invalid_large : INVALID_CHUNK_INDEX = U64 - 1 := rfl

theorem invalid_eq : INVALID_CHUNK_INDEX = U64 - 1 := rfl

/-- the context state produced by a refill for chunk `i`. -/
def refilled (c : DCtx) (f : SCFile) (i : Nat) : DCtx :=
  { c with
    base_chunk_idx := i
    base_chunk_offset := specOff f i
    chunk_offsets := (List.range (wlen f i + 1)).map (fun k => f.e (i + k) - f.e i) }

theorem get_chunk_location_refill {c : DCtx} {f : SCFile}
    {codec : List Nat → Nat → Option (List Nat)}
    (hWF : WF f codec) (hm : fileMatch c f codec)
    {i : Nat} (hi : i < f.n) (hrf : refillNeeded c.base_chunk_idx i = true) :
    get_chunk_location c i = (refilled c f i,
      some ((specOff f i + ((List.range (wlen f i + 1)).map
          (fun k => f.e (i + k) - f.e i)).getD (sub64 i i) 0) % U64,
        sub32 (((List.range (wlen f i + 1)).map
          (fun k => f.e (i + k) - f.e i)).getD (sub64 i i + 1) 0)
          (((List.range (wlen f i + 1)).map
          (fun k => f.e (i + k) - f.e i)).getD (sub64 i i) 0))) := by
  unfold get_chunk_location
  rw [if_pos hrf, refillWindow_eq hWF hm hi]
  rfl

theorem get_chunk_location_ok {c : DCtx} {f : SCFile}
    {codec : List Nat → Nat → Option (List Nat)}
    (hWF : WF f codec) (hm : fileMatch c f codec) (hc : cacheOK f c)
    {i : Nat} (hi : i < f.n) :
    ∃ c1, get_chunk_location c i = (c1, some (specOff f i, storedLen f i)) ∧
      fileMatch c1 f codec ∧ cacheOK f c1 ∧
      c1.cached_chunk_idx = c.cached_chunk_idx ∧ c1.cached_chunk = c.cached_chunk ∧
      c1.base_chunk_idx ≤ i ∧
      i + 1 ≤ c1.base_chunk_idx + wlen f c1.base_chunk_idx ∧
      (refillNeeded c.base_chunk_idx i = true → c1 = refilled c f i) := by
  have hus63 := hWF.2.2.1
  have hnleus : f.n ≤ f.uncompressed_size := SCFile.n_le_us
  have hiU : i < U64 := by unfold U64; omega
  have hw1 := wlen_pos hi
  have hw2 := wlen_le (f := f) i
  have hw3 := wlen_le_sub (f := f) i
  have hsl : i < f.stored.length := by rw [hWF.2.2.2.1]; exact hi
  have hoffB : specOff f i < U64 := by
    have h1 := tableLen_le_us hWF
    have h2 := e_le_us hWF (show i ≤ f.n by omega)
    unfold specOff U64
    omega
  by_cases hrf : refillNeeded c.base_chunk_idx i = true
  · refine ⟨refilled c f i, ?_, ⟨hm.1, hm.2.1, hm.2.2.1, hm.2.2.2⟩, ?_, rfl, rfl,
      le_refl i, ?_, fun _ => rfl⟩
    · rw [get_chunk_location_refill hWF hm hi hrf]
      have hk : sub64 i i = 0 := by
        rw [sub64_eq hiU (le_refl i)]
        omega
      simp only [hk]
      rw [getD_map_range (by omega) 0, getD_map_range (by omega) 0]
      simp only [Nat.add_zero, Nat.sub_self, Nat.zero_add]
      rw [Nat.mod_eq_of_lt hoffB]
      have hspan : f.e (i + 1) - f.e i < U32 := span_lt_U32 hWF (by omega) (by omega)
      unfold sub32
      rw [Nat.zero_mod, Nat.sub_zero, Nat.add_mod_right, Nat.mod_eq_of_lt hspan,
          e_succ hsl]
      have hst : f.e i + storedLen f i - f.e i = storedLen f i := by omega
      rw [hst]
    · refine Or.inr ⟨hi, rfl, fun k hk => ?_⟩
      have hk2 : k ≤ wlen f i := hk
      show ((List.range (wlen f i + 1)).map (fun k => f.e (i + k) - f.e i)).getD k 0
        = f.e (i + k) - f.e i
      exact getD_map_range (by omega) 0
    · show i + 1 ≤ i + wlen f i
      have := wlen_pos hi
      omega
  · rw [Bool.not_eq_true] at hrf
    rcases hc with hinv | ⟨hblt, hboff, hbents⟩
    · exfalso
      unfold refillNeeded at hrf
      rw [hinv, invalid_eq] at hrf
      simp only [Bool.or_eq_false_iff, decide_eq_false_iff_not, not_lt, not_le] at hrf
      have := hrf.1
      unfold U64 at this hiU
      omega
    · have hble : c.base_chunk_idx ≤ i ∧ i + 1 < c.base_chunk_idx + NUM_CHUNK_OFFSETS := by
        unfold refillNeeded at hrf
        simp only [Bool.or_eq_false_iff, decide_eq_false_iff_not, not_lt, not_le] at hrf
        refine ⟨hrf.1, ?_⟩
        have h1 : (i + 1) % U64 = i + 1 := Nat.mod_eq_of_lt (by unfold U64 at *; omega)
        have h2 : (c.base_chunk_idx + NUM_CHUNK_OFFSETS) % U64
            = c.base_chunk_idx + NUM_CHUNK_OFFSETS := by
          apply Nat.mod_eq_of_lt
          unfold NUM_CHUNK_OFFSETS U64
          unfold U64 at *
          omega
        have h3 := hrf.2
        rw [h1, h2] at h3
        exact h3
      obtain ⟨hb1, hb2⟩ := hble
      have hk1 : i - c.base_chunk_idx + 1 ≤ wlen f c.base_chunk_idx := by
        unfold wlen NUM_CHUNK_OFFSETS
        unfold NUM_CHUNK_OFFSETS at hb2
        have ha : i - c.base_chunk_idx + 1 ≤ 128 - 1 := by omega
        have hbb : i - c.base_chunk_idx + 1 ≤ f.n - c.base_chunk_idx := by omega
        exact le_min ha hbb
      have hkdef : sub64 i c.base_chunk_idx = i - c.base_chunk_idx := sub64_eq hiU hb1
      refine ⟨c, ?_, hm, Or.inr ⟨hblt, hboff, hbents⟩, rfl, rfl, hb1, by omega,
        fun h => absurd h (by rw [hrf]; exact Bool.false_ne_true)⟩
      unfold get_chunk_location
      rw [if_neg (by rw [hrf]; exact Bool.false_ne_true)]
      simp only [hkdef]
      rw [hbents _ (by omega), hbents _ (by omega)]
      have hibase : c.base_chunk_idx + (i - c.base_chunk_idx) = i := by omega
      have hibase1 : c.base_chunk_idx + (i - c.base_chunk_idx + 1) = i + 1 := by omega
      rw [hibase, hibase1]
      have hmono0 : f.e c.base_chunk_idx ≤ f.e i := e_mono f hb1
      have hmono1 : f.e i ≤ f.e (i + 1) := e_mono f (by omega)
      have hspan0 : f.e i - f.e c.base_chunk_idx < U32 := by
        have hs := span_lt_U32 hWF (i := c.base_chunk_idx) (k := i - c.base_chunk_idx)
          (by omega) (by unfold NUM_CHUNK_OFFSETS at hb2; omega)
        rw [hibase] at hs
        exact hs
      have hspan1 : f.e (i + 1) - f.e c.base_chunk_idx < U32 := by
        have hs := span_lt_U32 hWF (i := c.base_chunk_idx) (k := i - c.base_chunk_idx + 1)
          (by omega) (by unfold NUM_CHUNK_OFFSETS at hb2; omega)
        rw [hibase1] at hs
        exact hs
      rw [hboff]
      have hoff2 : (specOff f c.base_chunk_idx + (f.e i - f.e c.base_chunk_idx)) % U64
          = specOff f i := by
        have h1 := tableLen_le_us hWF
        have h2 := e_le_us hWF (show c.base_chunk_idx ≤ f.n by omega)
        have h3 := e_le_us hWF (show i ≤ f.n by omega)
        unfold specOff
        rw [Nat.mod_eq_of_lt (by unfold U64; omega)]
        omega
      rw [hoff2]
      have hst : sub32 (f.e (i + 1) - f.e c.base_chunk_idx)
          (f.e i - f.e c.base_chunk_idx) = storedLen f i := by
        rw [sub32_eq hspan1 (by omega), e_succ hsl]
        omega
      rw [hst]

theorem payload_read {f : SCFile} {codec : List Nat → Nat → Option (List Nat)}
    (hWF : WF f codec) {i : Nat} (hi : i < f.n) :
    ntfs_attr_pread f.data (specOff f i) (storedLen f i) = f.stored.getD i [] := by
  have hsl : i < f.stored.length := by rw [hWF.2.2.2.1]; exact hi
  have htb : (tableBytes f.w f.stored).length = f.tableLen := by
    rw [tableBytes_length, hWF.2.2.2.1]
    rfl
  unfold ntfs_attr_pread SCFile.data buildData specOff
  rw [← htb, List.drop_append]
  unfold SCFile.e
  rw [flatten_drop_cum]
  unfold storedLen
  rw [List.getD_eq_getElem?_getD, List.getElem?_eq_getElem hsl]
  simp only [Option.getD_some]
  rw [List.drop_eq_getElem_cons hsl, List.flatten_cons, List.take_left]

theorem read_and_decompress_chunk_ok {c : DCtx} {f : SCFile}
    {codec : List Nat → Nat → Option (List Nat)}
    (hWF : WF f codec) (hm : fileMatch c f codec) (hc : cacheOK f c)
    {i : Nat} (hi : i < f.n) :
    ∃ c1, read_and_decompress_chunk c i = (c1, .ok (chunkPlain f codec i)) ∧
      fileMatch c1 f codec ∧ cacheOK f c1 ∧
      c1.cached_chunk_idx = c.cached_chunk_idx ∧ c1.cached_chunk = c.cached_chunk := by
  obtain ⟨c1, hloc, hm1, hc1, hcc1, hcb1, _, _, _⟩ := get_chunk_location_ok hWF hm hc hi
  refine ⟨c1, ?_, hm1, hc1, hcc1, hcb1⟩
  unfold read_and_decompress_chunk
  rw [hloc]
  have hbounds := WF_stored_bounds hWF hi
  have hucl : chunkUncompLen c1 i = uncompSize f i :=
    chunkUncompLen_eq hm1 hi (us_lt_U64 hWF)
  simp only [hucl]
  rw [if_neg (by omega)]
  have hread : ntfs_attr_pread c1.data (specOff f i) (storedLen f i)
      = f.stored.getD i [] := by
    rw [hm1.1]
    exact payload_read hWF hi
  rw [hread]
  rw [if_neg (show ¬ (f.stored.getD i []).length ≠ storedLen f i from fun h => h rfl)]
  by_cases hsu : storedLen f i = uncompSize f i
  · rw [if_pos hsu]
    unfold chunkPlain
    rw [if_pos hsu]
  · rw [if_neg hsu]
    have hcodec := (hWF.2.2.2.2 i hi).2.2 hsu
    rw [hm1.2.2.2, hcodec.1]

theorem get_chunk_data_ok {c : DCtx} {f : SCFile}
    {codec : List Nat → Nat → Option (List Nat)}
    (hWF : WF f codec) (hm : fileMatch c f codec) (hc : cacheOK f c)
    (hcc : chunkCacheOK f codec c) {i : Nat} (hi : i < f.n) :
    ∃ c2, get_chunk_data c i = (c2, some (chunkPlain f codec i)) ∧
      fileMatch c2 f codec ∧ cacheOK f c2 ∧ chunkCacheOK f codec c2 ∧
      c2.cached_chunk_idx = i := by
  have hiinv : i ≠ INVALID_CHUNK_INDEX := by
    have h1 := hWF.2.2.1
    have h2 : f.n ≤ f.uncompressed_size := SCFile.n_le_us
    rw [invalid_eq]
    unfold U64
    omega
  unfold get_chunk_data
  by_cases hcached : i ≠ c.cached_chunk_idx
  · rw [if_pos hcached]
    have hm' : fileMatch { c with cached_chunk_idx := INVALID_CHUNK_INDEX } f codec :=
      ⟨hm.1, hm.2.1, hm.2.2.1, hm.2.2.2⟩
    have hc' : cacheOK f { c with cached_chunk_idx := INVALID_CHUNK_INDEX } := hc
    obtain ⟨c1, hrd, hm1, hc1, hcc1, hcb1⟩ := read_and_decompress_chunk_ok hWF hm' hc' hi
    dsimp only
    rw [hrd]
    refine ⟨_, rfl, ⟨hm1.1, hm1.2.1, hm1.2.2.1, hm1.2.2.2⟩, hc1, ?_, rfl⟩
    exact Or.inr ⟨hi, rfl⟩
  · rw [if_neg hcached]
    push_neg at hcached
    rcases hcc with hinv | ⟨hlt, hcache⟩
    · exact absurd (hcached.trans hinv) hiinv
    · refine ⟨c, ?_, hm, hc, Or.inr ⟨hlt, hcache⟩, hcached.symm⟩
      rw [hcache, ← hcached]

theorem chunkPlain_length {f : SCFile} {codec : List Nat → Nat → Option (List Nat)}
    (hWF : WF f codec) {i : Nat} (hi : i < f.n) :
    (chunkPlain f codec i).length = uncompSize f i := by
  unfold chunkPlain
  by_cases hsu : storedLen f i = uncompSize f i
  · rw [if_pos hsu]
    exact hsu
  · rw [if_neg hsu]
    have h := (hWF.2.2.2.2 i hi).2.2 hsu
    unfold chunkPlain at h
    rw [if_neg hsu] at h
    exact h.2

theorem reference_length {f : SCFile} {codec : List Nat → Nat → Option (List Nat)}
    (hWF : WF f codec) : (referenceDecomp f codec).length = f.uncompressed_size := by
  unfold referenceDecomp
  rw [List.length_flatten, List.map_map]
  have hcong : (List.range f.n).map (List.length ∘ chunkPlain f codec)
      = (List.range f.n).map (uncompSize f) := by
    apply List.map_congr_left
    intro j hj
    simp only [List.mem_range] at hj
    exact chunkPlain_length hWF hj
  rw [hcong]
  rcases Nat.eq_zero_or_pos f.uncompressed_size with h0 | h0
  · have hn0 : f.n = 0 := by
      by_contra hc
      have := SCFile.us_pos_of_n_pos (f := f) (by omega)
      omega
    rw [hn0, h0]
    rfl
  · exact sum_uncompSize h0

theorem cum_plain {f : SCFile} {codec : List Nat → Nat → Option (List Nat)}
    (hWF : WF f codec) : ∀ i, i ≤ f.n - 1 →
    cum ((List.range f.n).map (chunkPlain f codec)) i = i * f.cs := by
  intro i
  induction i with
  | zero =>
    intro
    simp [cum_zero]
  | succ i ih =>
    intro h
    have hin : i < f.n := by omega
    have hlen : i < ((List.range f.n).map (chunkPlain f codec)).length := by
      simpa using hin
    rw [cum_succ hlen, ih (by omega), getD_map_range_lists hin]
    rw [chunkPlain_length hWF hin]
    unfold uncompSize
    rw [if_neg (by omega)]
    ring

theorem reference_drop {f : SCFile} {codec : List Nat → Nat → Option (List Nat)}
    (hWF : WF f codec) {i : Nat} (hi : i < f.n) :
    (referenceDecomp f codec).drop (i * f.cs)
      = chunkPlain f codec i ++ (((List.range f.n).map (chunkPlain f codec)).drop (i + 1)).flatten := by
  unfold referenceDecomp
  rw [← cum_plain hWF i (by omega), flatten_drop_cum,
      List.drop_eq_getElem_cons (by simpa using hi), List.flatten_cons]
  congr 1
  have := getD_map_range_lists (g := chunkPlain f codec) hi []
  rw [List.getD_eq_getElem?_getD, List.getElem?_eq_getElem (by simpa using hi)] at this
  simpa using this.symm

theorem read_loop_ok {f : SCFile} {codec : List Nat → Nat → Option (List Nat)}
    (hWF : WF f codec) : ∀ fuel r c i off, fileMatch c f codec → cacheOK f c →
    chunkCacheOK f codec c → i < f.n → off < uncompSize f i → 1 ≤ r →
    i * f.cs + off + r ≤ f.uncompressed_size → r ≤ fuel →
    ∃ c2, read_loop fuel c i off r
        = (c2, ((referenceDecomp f codec).drop (i * f.cs + off)).take r) ∧
      fileMatch c2 f codec ∧ cacheOK f c2 ∧ chunkCacheOK f codec c2 ∧
      c2.cached_chunk_idx = (i * f.cs + off + r - 1) / f.cs := by
  intro fuel
  induction fuel with
  | zero =>
    intro r c i off _ _ _ _ _ hr _ hfuel
    omega
  | succ fuel ih =>
    intro r c i off hm hc hcc hi hoff hr hbound hfuel
    have husU := us_lt_U64 hWF
    have hucl : chunkUncompLen c i = uncompSize f i := chunkUncompLen_eq hm hi husU
    obtain ⟨c1, hgcd, hm1, hc1, hcc1, hci1⟩ := get_chunk_data_ok hWF hm hc hcc hi
    have hpl : (chunkPlain f codec i).length = uncompSize f i := chunkPlain_length hWF hi
    have hlen1 : 1 ≤ min r (uncompSize f i - off) := by
      have := uncompSize_pos f i
      omega
    have hslice : ∀ len, off + len ≤ uncompSize f i →
        memcpyFrom (chunkPlain f codec i) off len
          = ((referenceDecomp f codec).drop (i * f.cs + off)).take len := by
      intro len hle
      rw [memcpyFrom_eq (by omega)]
      have hd : (referenceDecomp f codec).drop (i * f.cs + off)
          = (chunkPlain f codec i).drop off ++
            (((List.range f.n).map (chunkPlain f codec)).drop (i + 1)).flatten := by
        rw [← List.drop_drop, reference_drop hWF hi,
            List.drop_append_of_le_length (by omega)]
      rw [hd, List.take_append_of_le_length (by rw [List.length_drop]; omega)]
    show ∃ c2, read_loop (fuel + 1) c i off r = _ ∧ _
    unfold read_loop
    rw [hucl, hgcd]
    dsimp only
    by_cases hstop : r = min r (uncompSize f i - off)
    · rw [if_pos hstop]
      refine ⟨c1, ?_, hm1, hc1, hcc1, ?_⟩
      · rw [hslice (min r (uncompSize f i - off)) (by omega), ← hstop]
      · rw [hci1]
        have hlt : off + r - 1 < f.cs := by
          have h1 := uncompSize_le_cs f i
          omega
        rw [show i * f.cs + off + r - 1 = (off + r - 1) + f.cs * i from by ring_nf; omega]
        rw [Nat.add_mul_div_left _ _ f.cs_pos, Nat.div_eq_of_lt hlt]
        omega
    · rw [if_neg hstop]
      have hlt : uncompSize f i - off < r := by omega
      have hlen : min r (uncompSize f i - off) = uncompSize f i - off := by omega
      have hine : i ≠ f.n - 1 := by
        intro hlast
        have hsum := SCFile.pred_n_mul (f := f)
          (SCFile.us_pos_of_n_pos (by omega))
        have huc : uncompSize f i = (f.uncompressed_size - 1) % f.cs + 1 := by
          unfold uncompSize
          rw [if_pos hlast]
        rw [hlast] at hbound
        omega
      have hcs : uncompSize f i = f.cs := by
        unfold uncompSize
        rw [if_neg hine]
      have hoffcs : off < f.cs := by rw [← hcs]; exact hoff
      have hi1 : i + 1 < f.n := by
        have h1 : i + 1 ≤ f.n - 1 := by omega
        omega
      have hoff1 : (0 : Nat) < uncompSize f (i + 1) := uncompSize_pos f (i + 1)
      have hq : min r (uncompSize f i - off) = f.cs - off := by omega
      have hbound1 : (i + 1) * f.cs + 0 + (r - min r (uncompSize f i - off))
          ≤ f.uncompressed_size := by
        have hh : (i + 1) * f.cs = i * f.cs + f.cs := by ring
        omega
      obtain ⟨c2, hrec, hm2, hc2, hcc2, hci2⟩ :=
        ih (r - min r (uncompSize f i - off)) c1 (i + 1) 0 hm1 hc1 hcc1 hi1 hoff1
          (by omega) hbound1 (by omega)
      rw [hrec]
      refine ⟨c2, ?_, hm2, hc2, hcc2, ?_⟩
      · have h1 : ((referenceDecomp f codec).drop (i * f.cs + off)).take
              (min r (uncompSize f i - off) + (r - min r (uncompSize f i - off)))
            = ((referenceDecomp f codec).drop (i * f.cs + off)).take
                (min r (uncompSize f i - off)) ++
              (((referenceDecomp f codec).drop (i * f.cs + off)).drop
                (min r (uncompSize f i - off))).take
                (r - min r (uncompSize f i - off)) :=
          List.take_add _ _ _
        have h2 : min r (uncompSize f i - off) + (r - min r (uncompSize f i - off)) = r := by
          omega
        rw [h2] at h1
        have harg : i * f.cs + off + min r (uncompSize f i - off) = (i + 1) * f.cs + 0 := by
          have hh : (i + 1) * f.cs = i * f.cs + f.cs := by ring
          omega
        rw [h1, List.drop_drop, harg, hslice _ (by omega)]
      · rw [hci2]
        have harg2 : (i + 1) * f.cs + 0 + (r - min r (uncompSize f i - off)) - 1
            = i * f.cs + off + r - 1 := by
          have hh : (i + 1) * f.cs = i * f.cs + f.cs := by ring
          omega
        rw [harg2]

theorem us_le_n_cs {f : SCFile} (h : 1 ≤ f.uncompressed_size) :
    f.uncompressed_size ≤ f.n * f.cs := by
  have h1 := SCFile.pred_n_mul h
  have h2 := Nat.mod_lt (f.uncompressed_size - 1) f.cs_pos
  have h3 := SCFile.n_pos h
  obtain ⟨m, hmm⟩ : ∃ m, f.n = m + 1 := ⟨f.n - 1, by omega⟩
  rw [hmm] at h1 ⊢
  simp only [Nat.add_sub_cancel] at h1
  have hh : (m + 1) * f.cs = m * f.cs + f.cs := by ring
  omega

theorem engine_read_ok {c : DCtx} {f : SCFile}
    {codec : List Nat → Nat → Option (List Nat)}
    (hWF : WF f codec) (hm : fileMatch c f codec) (hc : cacheOK f c)
    (hcc : chunkCacheOK f codec c) {pos : Int} {count : Nat}
    (hpos : 0 ≤ pos) (hlt : pos.toNat < f.uncompressed_size) (hcount : 1 ≤ count) :
    ∃ c2, ntfs_read_system_compressed_data (some c) pos count
        = ⟨some c2, ((min count (f.uncompressed_size - pos.toNat) : Nat) : Int),
            ((referenceDecomp f codec).drop pos.toNat).take count, none⟩ ∧
      fileMatch c2 f codec ∧ cacheOK f c2 ∧ chunkCacheOK f codec c2 ∧
      c2.cached_chunk_idx
        = (pos.toNat + min count (f.uncompressed_size - pos.toNat) - 1) / f.cs := by
  have hzero : ¬ pos < 0 := by omega
  have hcspos := f.cs_pos
  have husp : 1 ≤ f.uncompressed_size := by omega
  have hcnt1 : 1 ≤ min count (f.uncompressed_size - pos.toNat) := by
    have : 1 ≤ f.uncompressed_size - pos.toNat := by omega
    omega
  have hdm := Nat.div_add_mod pos.toNat f.cs
  have hdivlt : pos.toNat / f.cs < f.n := by
    have h1 := us_le_n_cs husp
    have h2 : pos.toNat < f.cs * f.n := by rw [Nat.mul_comm]; omega
    exact Nat.div_lt_of_lt_mul h2
  have hmod : pos.toNat % f.cs < uncompSize f (pos.toNat / f.cs) := by
    by_cases hl : pos.toNat / f.cs = f.n - 1
    · have h1 := SCFile.pred_n_mul husp
      have h2 := Nat.mod_lt (f.uncompressed_size - 1) f.cs_pos
      unfold uncompSize
      rw [if_pos hl]
      rw [hl] at hdm
      have hflip : f.cs * (f.n - 1) = (f.n - 1) * f.cs := Nat.mul_comm _ _
      omega
    · unfold uncompSize
      rw [if_neg hl]
      exact Nat.mod_lt _ hcspos
  have hbound : (pos.toNat / f.cs) * f.cs + pos.toNat % f.cs +
      min count (f.uncompressed_size - pos.toNat) ≤ f.uncompressed_size := by
    have hflip : f.cs * (pos.toNat / f.cs) = (pos.toNat / f.cs) * f.cs := Nat.mul_comm _ _
    omega
  obtain ⟨c2, hloop, hm2, hc2, hcc2, hci2⟩ := read_loop_ok hWF
    (min count (f.uncompressed_size - pos.toNat))
    (min count (f.uncompressed_size - pos.toNat)) c (pos.toNat / f.cs)
    (pos.toNat % f.cs) hm hc hcc hdivlt hmod hcnt1 hbound (le_refl _)
  have hchidx : pos.toNat >>> c.chunk_order = pos.toNat / f.cs := by
    rw [hm.2.2.1, Nat.shiftRight_eq_div_pow]
    rfl
  have hoffin : pos.toNat &&& (chunkSizeOf c - 1) = pos.toNat % f.cs := by
    rw [chunkSizeOf_eq hm]
    unfold SCFile.cs
    exact Nat.and_pow_two_sub_one_eq_mod _ _
  have hposdm : (pos.toNat / f.cs) * f.cs + pos.toNat % f.cs = pos.toNat := by
    have hflip : f.cs * (pos.toNat / f.cs) = (pos.toNat / f.cs) * f.cs := Nat.mul_comm _ _
    omega
  have hbytes_len : (((referenceDecomp f codec).drop pos.toNat).take
      (min count (f.uncompressed_size - pos.toNat))).length
      = min count (f.uncompressed_size - pos.toNat) := by
    rw [List.length_take, List.length_drop, reference_length hWF]
    omega
  have htakeq : ((referenceDecomp f codec).drop pos.toNat).take
        (min count (f.uncompressed_size - pos.toNat))
      = ((referenceDecomp f codec).drop pos.toNat).take count := by
    rcases le_or_lt count (f.uncompressed_size - pos.toNat) with hle | hgt
    · rw [min_eq_left hle]
    · rw [min_eq_right (by omega)]
      have hlen2 : ((referenceDecomp f codec).drop pos.toNat).length
          ≤ f.uncompressed_size - pos.toNat := by
        rw [List.length_drop, reference_length hWF]
      have hlen3 : ((referenceDecomp f codec).drop pos.toNat).length ≤ count := by
        rw [List.length_drop, reference_length hWF]
        omega
      rw [List.take_of_length_le hlen2, List.take_of_length_le hlen3]
  refine ⟨c2, ?_, hm2, hc2, hcc2, ?_⟩
  · unfold ntfs_read_system_compressed_data
    dsimp only
    rw [if_neg hzero, hm.2.1]
    rw [if_neg (by omega)]
    rw [if_neg (by omega)]
    rw [hchidx, hoffin]
    rw [hloop, hposdm]
    rw [hbytes_len]
    rw [if_neg (by omega)]
    rw [htakeq]
  · rw [hci2, hposdm]

/-! ## State-preservation facts used by the error-path claims -/

theorem refillWindow_fields {c : DCtx} {i : Nat} {c1 : DCtx}
    (h : refillWindow c i = some c1) :
    c1.data = c.data ∧ c1.uncompressed_size = c.uncompressed_size ∧
    c1.chunk_order = c.chunk_order ∧ c1.codec = c.codec ∧
    c1.cached_chunk_idx = c.cached_chunk_idx ∧ c1.cached_chunk = c.cached_chunk := by
  unfold refillWindow at h
  split_ifs at h
  injection h with h
  subst h
  exact ⟨rfl, rfl, rfl, rfl, rfl, rfl⟩

theorem get_chunk_location_state (c : DCtx) (i : Nat) :
    ((get_chunk_location c i).1.data = c.data ∧
     (get_chunk_location c i).1.uncompressed_size = c.uncompressed_size ∧
     (get_chunk_location c i).1.chunk_order = c.chunk_order ∧
     (get_chunk_location c i).1.codec = c.codec) ∧
    (get_chunk_location c i).1.cached_chunk_idx = c.cached_chunk_idx ∧
    (get_chunk_location c i).1.cached_chunk = c.cached_chunk := by
  unfold get_chunk_location
  by_cases hrf : refillNeeded c.base_chunk_idx i = true
  · rw [if_pos hrf]
    rcases hrw : refillWindow c i with _ | c1
    · exact ⟨⟨rfl, rfl, rfl, rfl⟩, rfl, rfl⟩
    · obtain ⟨h1, h2, h3, h4, h5, h6⟩ := refillWindow_fields hrw
      exact ⟨⟨h1, h2, h3, h4⟩, h5, h6⟩
  · rw [if_neg hrf]
    exact ⟨⟨rfl, rfl, rfl, rfl⟩, rfl, rfl⟩

theorem read_and_decompress_state (c : DCtx) (i : Nat) :
    ((read_and_decompress_chunk c i).1.data = c.data ∧
     (read_and_decompress_chunk c i).1.uncompressed_size = c.uncompressed_size ∧
     (read_and_decompress_chunk c i).1.chunk_order = c.chunk_order ∧
     (read_and_decompress_chunk c i).1.codec = c.codec) ∧
    (read_and_decompress_chunk c i).1.cached_chunk_idx = c.cached_chunk_idx ∧
    (read_and_decompress_chunk c i).1.cached_chunk = c.cached_chunk := by
  have hst := get_chunk_location_state c i
  unfold read_and_decompress_chunk
  rcases hloc : get_chunk_location c i with ⟨c1, r⟩
  rw [hloc] at hst
  rcases r with _ | offstored
  · exact hst
  · dsimp only
    split_ifs
    · exact hst
    · exact hst
    · exact hst
    · rcases c1.codec (ntfs_attr_pread c1.data offstored.1 offstored.2)
        (chunkUncompLen c1 i) with _ | outb
      · exact hst
      · exact hst

theorem get_chunk_data_fail {c : DCtx} {i : Nat}
    (h : (get_chunk_data c i).2 = none) :
    (get_chunk_data c i).1.cached_chunk_idx = INVALID_CHUNK_INDEX := by
  unfold get_chunk_data at h ⊢
  by_cases hcached : i ≠ c.cached_chunk_idx
  · rw [if_pos hcached] at h ⊢
    have hst := read_and_decompress_state { c with cached_chunk_idx := INVALID_CHUNK_INDEX } i
    rcases hrd : read_and_decompress_chunk
        { c with cached_chunk_idx := INVALID_CHUNK_INDEX } i with ⟨c2, r⟩
    rw [hrd] at hst
    rcases r with e | bs
    · simp only [hrd]
      exact hst.2.1
    · simp [hrd] at h
  · rw [if_neg hcached] at h ⊢
    simp at h

theorem get_chunk_data_shape (c : DCtx) (i : Nat) :
    (get_chunk_data c i).1.uncompressed_size = c.uncompressed_size ∧
    (get_chunk_data c i).1.chunk_order = c.chunk_order ∧
    (get_chunk_data c i).1.data = c.data ∧
    (get_chunk_data c i).1.codec = c.codec := by
  unfold get_chunk_data
  by_cases hcached : i ≠ c.cached_chunk_idx
  · rw [if_pos hcached]
    have hst := read_and_decompress_state { c with cached_chunk_idx := INVALID_CHUNK_INDEX } i
    rcases hrd : read_and_decompress_chunk
        { c with cached_chunk_idx := INVALID_CHUNK_INDEX } i with ⟨c2, r⟩
    rw [hrd] at hst
    rcases r with e | bs
    · simp only [hrd]
      exact ⟨hst.1.2.1, hst.1.2.2.1, hst.1.1, hst.1.2.2.2⟩
    · simp only [hrd]
      exact ⟨hst.1.2.1, hst.1.2.2.1, hst.1.1, hst.1.2.2.2⟩
  · rw [if_neg hcached]
    exact ⟨rfl, rfl, rfl, rfl⟩

theorem chunkUncompLen_pos (c : DCtx) (i : Nat) : 1 ≤ chunkUncompLen c i := by
  unfold chunkUncompLen
  split
  · omega
  · unfold chunkSizeOf
    rw [Nat.shiftLeft_eq, Nat.one_mul]
    exact Nat.one_le_two_pow

theorem read_loop_dichotomy : ∀ fuel r c i off, 1 ≤ r → r ≤ fuel →
    off < chunkUncompLen c i →
    (read_loop fuel c i off r).2.length = r ∨
    ((read_loop fuel c i off r).2.length < r ∧
     (read_loop fuel c i off r).1.cached_chunk_idx = INVALID_CHUNK_INDEX) := by
  intro fuel
  induction fuel with
  | zero =>
    intro r c i off hr hfuel
    omega
  | succ fuel ih =>
    intro r c i off hr hfuel hoff
    have hlen1 : 1 ≤ min r (chunkUncompLen c i - off) := by omega
    unfold read_loop
    rcases hgcd : get_chunk_data c i with ⟨c1, rr⟩
    rcases rr with _ | chunk
    · right
      dsimp only
      constructor
      · simpa using hr
      · have := get_chunk_data_fail (by rw [hgcd])
        rw [hgcd] at this
        exact this
    · dsimp only
      by_cases hstop : r = min r (chunkUncompLen c i - off)
      · rw [if_pos hstop]
        left
        rw [memcpyFrom_length]
        omega
      · rw [if_neg hstop]
        have hoff1 : (0 : Nat) < chunkUncompLen c1 (i + 1) := chunkUncompLen_pos c1 (i + 1)
        have hrec := ih (r - min r (chunkUncompLen c i - off)) c1 (i + 1) 0
          (by omega) (by omega) hoff1
        rcases hrec with hfull | ⟨hpart, hinv⟩
        · left
          dsimp only
          rw [List.length_append, memcpyFrom_length, hfull]
          omega
        · right
          dsimp only
          constructor
          · rw [List.length_append, memcpyFrom_length]
            omega
          · exact hinv

theorem chunkSizeOf_eq' {c : DCtx} {f : SCFile} (h2 : c.chunk_order = f.chunk_order) :
    chunkSizeOf c = f.cs := by
  unfold chunkSizeOf SCFile.cs
  rw [h2, Nat.shiftLeft_eq, Nat.one_mul]

theorem numChunks_eq' {c : DCtx} {f : SCFile}
    (h1 : c.uncompressed_size = f.uncompressed_size) (h2 : c.chunk_order = f.chunk_order) :
    numChunks c = f.n := by
  unfold numChunks SCFile.n
  rw [chunkSizeOf_eq' h2, h1, h2, Nat.shiftRight_eq_div_pow]
  rfl

theorem chunkUncompLen_eq' {c : DCtx} {f : SCFile}
    (h1 : c.uncompressed_size = f.uncompressed_size) (h2 : c.chunk_order = f.chunk_order)
    {i : Nat} (hn : i < f.n) (hus : f.uncompressed_size < U64) :
    chunkUncompLen c i = uncompSize f i := by
  have hn1 : 1 ≤ f.n := by omega
  have husp : 1 ≤ f.uncompressed_size := SCFile.us_pos_of_n_pos hn1
  have hnle : f.n ≤ f.uncompressed_size := SCFile.n_le_us
  unfold chunkUncompLen uncompSize
  rw [numChunks_eq' h1 h2, sub64_eq (by omega) (by omega), h1,
      sub64_eq (by omega) (by omega), chunkSizeOf_eq' h2]
  unfold SCFile.cs
  rw [Nat.and_pow_two_sub_one_eq_mod]

theorem entry_geometry {c : DCtx} (husU : c.uncompressed_size < U64) {p : Nat}
    (hp : p < c.uncompressed_size) :
    p >>> c.chunk_order < numChunks c ∧
    p &&& (chunkSizeOf c - 1) < chunkUncompLen c (p >>> c.chunk_order) := by
  have h1 : c.uncompressed_size = (⟨c.chunk_order, c.uncompressed_size, []⟩ : SCFile).uncompressed_size := rfl
  have h2 : c.chunk_order = (⟨c.chunk_order, c.uncompressed_size, []⟩ : SCFile).chunk_order := rfl
  set f : SCFile := ⟨c.chunk_order, c.uncompressed_size, []⟩ with hf
  have hcspos := f.cs_pos
  have husp : 1 ≤ f.uncompressed_size := by
    show 1 ≤ c.uncompressed_size
    omega
  have hdm := Nat.div_add_mod p f.cs
  have hdiv : p >>> c.chunk_order = p / f.cs := by
    rw [h2, Nat.shiftRight_eq_div_pow]
    rfl
  have hmodd : p &&& (chunkSizeOf c - 1) = p % f.cs := by
    rw [chunkSizeOf_eq' h2]
    unfold SCFile.cs
    exact Nat.and_pow_two_sub_one_eq_mod _ _
  have hpf : p < f.uncompressed_size := hp
  have hdivlt : p / f.cs < f.n := by
    have ha := us_le_n_cs husp
    have hb : p < f.cs * f.n := by rw [Nat.mul_comm]; omega
    exact Nat.div_lt_of_lt_mul hb
  have hmod : p % f.cs < uncompSize f (p / f.cs) := by
    by_cases hl : p / f.cs = f.n - 1
    · have ha := SCFile.pred_n_mul husp
      have hb := Nat.mod_lt (f.uncompressed_size - 1) f.cs_pos
      unfold uncompSize
      rw [if_pos hl]
      rw [hl] at hdm
      have hflip : f.cs * (f.n - 1) = (f.n - 1) * f.cs := Nat.mul_comm _ _
      omega
    · unfold uncompSize
      rw [if_neg hl]
      exact Nat.mod_lt _ hcspos
  constructor
  · rw [hdiv, numChunks_eq' h1 h2]
    exact hdivlt
  · rw [hdiv, hmodd, chunkUncompLen_eq' h1 h2 hdivlt (by omega)]
    exact hmod

theorem engine_entry_eq {c : DCtx} {pos : Int} {count : Nat}
    (hpos : 0 ≤ pos) (hlt : pos.toNat < c.uncompressed_size)
    (hcnt : 1 ≤ min count (c.uncompressed_size - pos.toNat)) :
    ntfs_read_system_compressed_data (some c) pos count
      = ⟨some (read_loop (min count (c.uncompressed_size - pos.toNat)) c
            (pos.toNat >>> c.chunk_order) (pos.toNat &&& (chunkSizeOf c - 1))
            (min count (c.uncompressed_size - pos.toNat))).1,
          if (read_loop (min count (c.uncompressed_size - pos.toNat)) c
            (pos.toNat >>> c.chunk_order) (pos.toNat &&& (chunkSizeOf c - 1))
            (min count (c.uncompressed_size - pos.toNat))).2.length = 0 then -1
          else ((read_loop (min count (c.uncompressed_size - pos.toNat)) c
            (pos.toNat >>> c.chunk_order) (pos.toNat &&& (chunkSizeOf c - 1))
            (min count (c.uncompressed_size - pos.toNat))).2.length : Int),
          (read_loop (min count (c.uncompressed_size - pos.toNat)) c
            (pos.toNat >>> c.chunk_order) (pos.toNat &&& (chunkSizeOf c - 1))
            (min count (c.uncompressed_size - pos.toNat))).2, none⟩ := by
  unfold ntfs_read_system_compressed_data
  dsimp only
  rw [if_neg (by omega), if_neg (by omega), if_neg (by omega)]

/-- C3: the chunk lookup answers from the cache window by
`k = chunk_idx - base_chunk_idx`, returning `base_chunk_offset + offsets[k]`
and `offsets[k+1] - offsets[k]` in exact arithmetic; after a refill
base_chunk_offset is the chunk's end-of-table-relative offset biased by
`(num_chunks - 1) << entry_shift`, and when the window reaches the last
chunk the sentinel entry equals `compressed_size - base_chunk_offset`. -/
theorem locate_window_lookup {c : DCtx} {f : SCFile}
    {codec : List Nat → Nat → Option (List Nat)}
    (hWF : WF f codec) (hm : fileMatch c f codec) (hc : cacheOK f c)
    {i : Nat} (hi : i < f.n) :
    ∃ c1, get_chunk_location c i
        = (c1, some (c1.base_chunk_offset
              + c1.chunk_offsets.getD (i - c1.base_chunk_idx) 0,
            c1.chunk_offsets.getD (i - c1.base_chunk_idx + 1) 0
              - c1.chunk_offsets.getD (i - c1.base_chunk_idx) 0)) ∧
      c1.base_chunk_idx ≤ i ∧
      (refillNeeded c.base_chunk_idx i = true →
        c1.base_chunk_offset = f.e i + ((f.n - 1) <<< entryShift c1)) ∧
      (c1.base_chunk_idx + wlen f c1.base_chunk_idx = f.n →
        c1.chunk_offsets.getD (wlen f c1.base_chunk_idx) 0
          = compressedSize c1 - c1.base_chunk_offset) := by
  obtain ⟨c1, heq, hm1, hc1, _, _, hble, hble2, hrefl⟩ := get_chunk_location_ok hWF hm hc hi
  have hus63 := hWF.2.2.1
  have hnleus : f.n ≤ f.uncompressed_size := SCFile.n_le_us
  have hsl : i < f.stored.length := by rw [hWF.2.2.2.1]; exact hi
  rcases hc1 with hinv | ⟨hblt, hboff, hbents⟩
  · exfalso
    rw [invalid_eq] at hinv
    unfold U64 at hinv
    omega
  · have hk1 : i - c1.base_chunk_idx + 1 ≤ wlen f c1.base_chunk_idx := by omega
    have hoffk : c1.chunk_offsets.getD (i - c1.base_chunk_idx) 0
        = f.e i - f.e c1.base_chunk_idx := by
      rw [hbents _ (by omega), show c1.base_chunk_idx + (i - c1.base_chunk_idx) = i
        from by omega]
    have hoffk1 : c1.chunk_offsets.getD (i - c1.base_chunk_idx + 1) 0
        = f.e (i + 1) - f.e c1.base_chunk_idx := by
      rw [hbents _ (by omega), show c1.base_chunk_idx + (i - c1.base_chunk_idx + 1) = i + 1
        from by omega]
    have hmono0 : f.e c1.base_chunk_idx ≤ f.e i := e_mono f hble
    have hmono1 : f.e i ≤ f.e (i + 1) := e_mono f (by omega)
    refine ⟨c1, ?_, hble, ?_, ?_⟩
    · rw [heq, hoffk, hoffk1, hboff]
      have h1 : specOff f i = specOff f c1.base_chunk_idx
          + (f.e i - f.e c1.base_chunk_idx) := by
        unfold specOff
        omega
      have h2 : storedLen f i = (f.e (i + 1) - f.e c1.base_chunk_idx)
          - (f.e i - f.e c1.base_chunk_idx) := by
        rw [e_succ hsl]
        omega
      rw [← h1, ← h2]
    · intro hrf
      have hc1eq := hrefl hrf
      have hoffspec : c1.base_chunk_offset = specOff f i := by
        rw [hc1eq]
        rfl
      rw [hoffspec]
      unfold specOff
      rw [shl_eq_mul ⟨hm1.1, hm1.2.1, hm1.2.2.1, hm1.2.2.2⟩]
      have htl : f.tableLen = (f.n - 1) * f.w := rfl
      omega
    · intro hlast
      rw [hbents _ (le_refl _), hlast]
      have hcs1 : compressedSize c1 = f.tableLen + f.e f.n := by
        unfold compressedSize
        rw [hm1.1, data_length hWF]
      rw [hcs1, hboff]
      unfold specOff
      have hmonoN : f.e c1.base_chunk_idx ≤ f.e f.n := e_mono f (by omega)
      omega

theorem refillWindow_codec (c : DCtx) (g : List Nat → Nat → Option (List Nat)) (i : Nat) :
    refillWindow { c with codec := g } i
      = (refillWindow c i).map (fun c1 => { c1 with codec := g }) := by
  unfold refillWindow
  have hbuf : rwBuf { c with codec := g } i = rwBuf c i := rfl
  have hne : rwNumEntries { c with codec := g } i = rwNumEntries c i := rfl
  have hshift : entryShift { c with codec := g } = entryShift c := rfl
  rw [hbuf, hne, hshift]
  split_ifs <;> rfl

theorem get_chunk_location_codec (c : DCtx) (g : List Nat → Nat → Option (List Nat))
    (i : Nat) :
    get_chunk_location { c with codec := g } i
      = ({ (get_chunk_location c i).1 with codec := g }, (get_chunk_location c i).2) := by
  by_cases hrf : refillNeeded c.base_chunk_idx i = true
  · unfold get_chunk_location
    dsimp only
    rw [if_pos hrf, if_pos hrf, refillWindow_codec]
    rcases refillWindow c i with _ | c1 <;> rfl
  · unfold get_chunk_location
    dsimp only
    rw [if_neg hrf, if_neg hrf]

theorem get_chunk_location_short {c : DCtx} {i : Nat}
    (hrf : refillNeeded c.base_chunk_idx i = true)
    (hshort : (rwBuf c i).length ≠ (rwNumEntries c i <<< entryShift c) % U64) :
    get_chunk_location c i = ({ c with base_chunk_idx := INVALID_CHUNK_INDEX }, none) := by
  unfold get_chunk_location
  rw [if_pos hrf]
  have hw : refillWindow c i = none := by
    unfold refillWindow
    rw [if_pos hshort]
  rw [hw]

/-- C4: read_and_decompress_chunk fails with the strange-stored-size rejection
exactly when the stored size is 0 or exceeds the chunk's uncompressed size
(chunk_size for every chunk but the last, ((uncompressed_size-1) mod
chunk_size)+1 for the last); and when the stored size equals the uncompressed
size the stored bytes are delivered verbatim, for every codec alike. -/
theorem read_chunk_invalid_and_verbatim {c : DCtx} {i : Nat} {c1 : DCtx}
    {off stored : Nat}
    (hloc : get_chunk_location c i = (c1, some (off, stored)))
    (husU : c.uncompressed_size < U64) (hi : i < numChunks c) :
    ((read_and_decompress_chunk c i).2 = .error .invalidStored ↔
      stored = 0 ∨ (if i = numChunks c - 1
        then (c.uncompressed_size - 1) % chunkSizeOf c + 1
        else chunkSizeOf c) < stored) ∧
    (stored = (if i = numChunks c - 1
        then (c.uncompressed_size - 1) % chunkSizeOf c + 1 else chunkSizeOf c) →
      off + stored ≤ c.data.length →
      ∀ g, read_and_decompress_chunk { c with codec := g } i
        = ({ c1 with codec := g }, .ok (ntfs_attr_pread c.data off stored))) := by
  have hst := get_chunk_location_state c i
  rw [hloc] at hst
  have h1 : c1.uncompressed_size = c.uncompressed_size := hst.1.2.1
  have h2 : c1.chunk_order = c.chunk_order := hst.1.2.2.1
  have hdata : c1.data = c.data := hst.1.1
  have hf1 : c.uncompressed_size
      = (⟨c.chunk_order, c.uncompressed_size, []⟩ : SCFile).uncompressed_size := rfl
  have hf2 : c.chunk_order
      = (⟨c.chunk_order, c.uncompressed_size, []⟩ : SCFile).chunk_order := rfl
  have hfn : numChunks c = (⟨c.chunk_order, c.uncompressed_size, []⟩ : SCFile).n :=
    numChunks_eq' hf1 hf2
  have hucl : chunkUncompLen c1 i
      = uncompSize (⟨c.chunk_order, c.uncompressed_size, []⟩ : SCFile) i :=
    chunkUncompLen_eq' (h1.trans hf1) (h2.trans hf2) (by rw [← hfn]; exact hi) husU
  have hformula : uncompSize (⟨c.chunk_order, c.uncompressed_size, []⟩ : SCFile) i
      = (if i = numChunks c - 1
        then (c.uncompressed_size - 1) % chunkSizeOf c + 1 else chunkSizeOf c) := by
    unfold uncompSize
    rw [hfn, chunkSizeOf_eq' hf2]
  have huclf : chunkUncompLen c1 i = (if i = numChunks c - 1
      then (c.uncompressed_size - 1) % chunkSizeOf c + 1 else chunkSizeOf c) :=
    hucl.trans hformula
  constructor
  · unfold read_and_decompress_chunk
    rw [hloc]
    dsimp only
    rw [huclf]
    set ucv := (if i = numChunks c - 1
        then (c.uncompressed_size - 1) % chunkSizeOf c + 1 else chunkSizeOf c) with hucv
    by_cases hcond : stored = 0 ∨ ucv < stored
    · rw [if_pos hcond]
      simpa using hcond
    · rw [if_neg hcond]
      split_ifs with hlen hverb
      · exact iff_of_false (by simp) hcond
      · exact iff_of_false (by simp) hcond
      · rcases c1.codec (ntfs_attr_pread c1.data off stored) ucv with _ | outb
        · exact iff_of_false (by simp) hcond
        · exact iff_of_false (by simp) hcond
  · intro hverb hfull g
    have hpos : 1 ≤ stored := by
      rw [hverb, ← huclf]
      exact chunkUncompLen_pos c1 i
    unfold read_and_decompress_chunk
    rw [get_chunk_location_codec, hloc]
    dsimp only
    have huclg : chunkUncompLen { c1 with codec := g } i = chunkUncompLen c1 i := rfl
    rw [huclg, huclf]
    rw [if_neg (by omega)]
    have hreadg : ntfs_attr_pread ({ c1 with codec := g }).data off stored
        = ntfs_attr_pread c.data off stored := by
      show ntfs_attr_pread c1.data off stored = ntfs_attr_pread c.data off stored
      rw [hdata]
    rw [hreadg]
    have hlen : (ntfs_attr_pread c.data off stored).length = stored := by
      unfold ntfs_attr_pread
      rw [List.length_take, List.length_drop]
      omega
    rw [if_neg (by rw [hlen]; exact fun h => h rfl)]
    rw [if_pos hverb]

/-- C2: on a well-formed system-compressed file, for every position inside
the file and every positive count, the read engine returns exactly
min(count, uncompressed_size - pos) bytes, and those bytes are the
corresponding slice of the reference whole-file decompression (each chunk
decompressed independently and concatenated in order). -/
theorem read_engine_reference_slice {c : DCtx} {f : SCFile}
    {codec : List Nat → Nat → Option (List Nat)} {pos : Int} {count : Nat}
    (hWF : WF f codec) (hm : fileMatch c f codec) (hc : cacheOK f c)
    (hcc : chunkCacheOK f codec c) (hpos : 0 ≤ pos)
    (hlt : pos.toNat < f.uncompressed_size) (hcount : 1 ≤ count) :
    (ntfs_read_system_compressed_data (some c) pos count).ret
      = ((min count (f.uncompressed_size - pos.toNat) : Nat) : Int) ∧
    (ntfs_read_system_compressed_data (some c) pos count).bytes
      = ((referenceDecomp f codec).drop pos.toNat).take count := by
  obtain ⟨c2, heq, _⟩ := engine_read_ok hWF hm hc hcc hpos hlt hcount
  rw [heq]
  exact ⟨rfl, rfl⟩

theorem read_and_decompress_locFail {c : DCtx} {i : Nat} {c1 : DCtx}
    (h : get_chunk_location c i = (c1, none)) :
    read_and_decompress_chunk c i = (c1, .error .locFail) := by
  unfold read_and_decompress_chunk
  rw [h]

theorem get_chunk_data_locate_fail {c : DCtx} {i : Nat}
    (hne : i ≠ c.cached_chunk_idx)
    (hrf : refillNeeded c.base_chunk_idx i = true)
    (hshort : (rwBuf c i).length ≠ (rwNumEntries c i <<< entryShift c) % U64) :
    get_chunk_data c i = ({ c with
      base_chunk_idx := INVALID_CHUNK_INDEX
      cached_chunk_idx := INVALID_CHUNK_INDEX }, none) := by
  unfold get_chunk_data
  rw [if_pos hne]
  have hloc : get_chunk_location { c with cached_chunk_idx := INVALID_CHUNK_INDEX } i
      = ({ c with
            base_chunk_idx := INVALID_CHUNK_INDEX
            cached_chunk_idx := INVALID_CHUNK_INDEX }, none) := by
    have hh := get_chunk_location_short
      (c := { c with cached_chunk_idx := INVALID_CHUNK_INDEX }) (i := i) hrf hshort
    exact hh
  dsimp only
  rw [read_and_decompress_locFail hloc]

theorem read_loop_first_success_len {fuel : Nat} {c : DCtx} {i off r : Nat}
    {c1 : DCtx} {ch : List Nat}
    (hg : get_chunk_data c i = (c1, some ch)) (hfu : 1 ≤ fuel)
    (hlen : 1 ≤ min r (chunkUncompLen c i - off)) :
    1 ≤ (read_loop fuel c i off r).2.length := by
  obtain ⟨fu, hfeq⟩ : ∃ fu, fuel = fu + 1 := ⟨fuel - 1, by omega⟩
  subst hfeq
  unfold read_loop
  rw [hg]
  dsimp only
  by_cases hstop : r = min r (chunkUncompLen c i - off)
  · rw [if_pos hstop]
    rw [memcpyFrom_length]
    omega
  · rw [if_neg hstop]
    dsimp only
    rw [List.length_append, memcpyFrom_length]
    omega

/-- C5: once the read engine has entered its copy loop, failure to fetch the
very first chunk delivers zero bytes and returns -1, while any outcome that
delivered at least one byte returns that positive byte count (a later chunk
failure merely truncates the read); -1 is returned exactly when no byte was
delivered. -/
theorem read_partial_success_rule {c : DCtx} {pos : Int} {count : Nat}
    (husU : c.uncompressed_size < U64) (hpos : 0 ≤ pos)
    (hlt : pos.toNat < c.uncompressed_size) (hcount : 1 ≤ count) :
    ((ntfs_read_system_compressed_data (some c) pos count).ret = -1 ↔
      (ntfs_read_system_compressed_data (some c) pos count).bytes = []) ∧
    ((get_chunk_data c (pos.toNat >>> c.chunk_order)).2 = none →
      (ntfs_read_system_compressed_data (some c) pos count).ret = -1 ∧
      (ntfs_read_system_compressed_data (some c) pos count).bytes = []) ∧
    ((ntfs_read_system_compressed_data (some c) pos count).bytes ≠ [] →
      (ntfs_read_system_compressed_data (some c) pos count).ret
        = ((ntfs_read_system_compressed_data (some c) pos count).bytes.length : Int) ∧
      1 ≤ (ntfs_read_system_compressed_data (some c) pos count).bytes.length) ∧
    (∀ c1 ch, get_chunk_data c (pos.toNat >>> c.chunk_order) = (c1, some ch) →
      1 ≤ (ntfs_read_system_compressed_data (some c) pos count).ret) := by
  have hcnt : 1 ≤ min count (c.uncompressed_size - pos.toNat) := by omega
  have hR := engine_entry_eq hpos hlt hcnt
  obtain ⟨m, hmeq⟩ : ∃ m, min count (c.uncompressed_size - pos.toNat) = m + 1 :=
    ⟨min count (c.uncompressed_size - pos.toNat) - 1, by omega⟩
  have hgeom := entry_geometry husU hlt
  refine ⟨?_, ?_, ?_, ?_⟩
  · rw [hR]
    dsimp only
    by_cases hb : (read_loop (min count (c.uncompressed_size - pos.toNat)) c
        (pos.toNat >>> c.chunk_order) (pos.toNat &&& (chunkSizeOf c - 1))
        (min count (c.uncompressed_size - pos.toNat))).2.length = 0
    · rw [if_pos hb]
      simp only [true_iff]
      exact List.length_eq_zero.mp hb
    · rw [if_neg hb]
      constructor
      · intro hcontra
        exfalso
        omega
      · intro hnil
        have h0 : (read_loop (min count (c.uncompressed_size - pos.toNat)) c
            (pos.toNat >>> c.chunk_order) (pos.toNat &&& (chunkSizeOf c - 1))
            (min count (c.uncompressed_size - pos.toNat))).2.length = 0 := by
          rw [hnil]
          rfl
        exact absurd h0 hb
  · intro hfail
    rcases hg : get_chunk_data c (pos.toNat >>> c.chunk_order) with ⟨c1, rr⟩
    rw [hg] at hfail
    dsimp only at hfail
    subst hfail
    rw [hR, hmeq]
    unfold read_loop
    dsimp only
    rw [hg]
    exact ⟨rfl, rfl⟩
  · intro hnil
    rw [hR] at hnil ⊢
    dsimp only at hnil ⊢
    have hb : ¬ (read_loop (min count (c.uncompressed_size - pos.toNat)) c
        (pos.toNat >>> c.chunk_order) (pos.toNat &&& (chunkSizeOf c - 1))
        (min count (c.uncompressed_size - pos.toNat))).2.length = 0 := by
      intro h0
      exact hnil (List.length_eq_zero.mp h0)
    rw [if_neg hb]
    exact ⟨rfl, by omega⟩
  · intro c1 ch hfirst
    have hlb : 1 ≤ (read_loop (min count (c.uncompressed_size - pos.toNat)) c
        (pos.toNat >>> c.chunk_order) (pos.toNat &&& (chunkSizeOf c - 1))
        (min count (c.uncompressed_size - pos.toNat))).2.length := by
      apply read_loop_first_success_len hfirst (by omega)
      have := hgeom.2
      omega
    rw [hR]
    dsimp only
    rw [if_neg (by omega)]
    omega

/-- C8: a short chunk-table read during a window refill makes locate fail
and leave the offset cache empty (base_chunk_idx = INVALID_CHUNK_INDEX); a
read whose first chunk hits such a failure returns -1 with the cache left
invalidated, while a read that already delivered bytes returns the positive
partial count. -/
theorem locate_short_read_invalidates {cx : DCtx} {pos : Int} {count : Nat}
    (husU : cx.uncompressed_size < U64) (hpos : 0 ≤ pos)
    (hlt : pos.toNat < cx.uncompressed_size) (hcount : 1 ≤ count) :
    (∀ c i, refillNeeded c.base_chunk_idx i = true →
      (rwBuf c i).length ≠ (rwNumEntries c i <<< entryShift c) % U64 →
      get_chunk_location c i = ({ c with base_chunk_idx := INVALID_CHUNK_INDEX }, none)) ∧
    (pos.toNat >>> cx.chunk_order ≠ cx.cached_chunk_idx →
      refillNeeded cx.base_chunk_idx (pos.toNat >>> cx.chunk_order) = true →
      (rwBuf cx (pos.toNat >>> cx.chunk_order)).length
        ≠ (rwNumEntries cx (pos.toNat >>> cx.chunk_order) <<< entryShift cx) % U64 →
      (ntfs_read_system_compressed_data (some cx) pos count).ret = -1 ∧
      (ntfs_read_system_compressed_data (some cx) pos count).rctx
        = some { cx with
            base_chunk_idx := INVALID_CHUNK_INDEX
            cached_chunk_idx := INVALID_CHUNK_INDEX }) ∧
    ((ntfs_read_system_compressed_data (some cx) pos count).bytes ≠ [] →
      (ntfs_read_system_compressed_data (some cx) pos count).ret
        = ((ntfs_read_system_compressed_data (some cx) pos count).bytes.length : Int) ∧
      1 ≤ (ntfs_read_system_compressed_data (some cx) pos count).bytes.length) := by
  have hcnt : 1 ≤ min count (cx.uncompressed_size - pos.toNat) := by omega
  have hR := engine_entry_eq hpos hlt hcnt
  obtain ⟨m, hmeq⟩ : ∃ m, min count (cx.uncompressed_size - pos.toNat) = m + 1 :=
    ⟨min count (cx.uncompressed_size - pos.toNat) - 1, by omega⟩
  refine ⟨fun c i hrf hshort => get_chunk_location_short hrf hshort, ?_, ?_⟩
  · intro hne hrf hshort
    have hg := get_chunk_data_locate_fail hne hrf hshort
    rw [hR, hmeq]
    unfold read_loop
    dsimp only
    rw [hg]
    exact ⟨rfl, rfl⟩
  · intro hnil
    rw [hR] at hnil ⊢
    dsimp only at hnil ⊢
    have hb : ¬ (read_loop (min count (cx.uncompressed_size - pos.toNat)) cx
        (pos.toNat >>> cx.chunk_order) (pos.toNat &&& (chunkSizeOf cx - 1))
        (min count (cx.uncompressed_size - pos.toNat))).2.length = 0 := by
      intro h0
      exact hnil (List.length_eq_zero.mp h0)
    rw [if_neg hb]
    exact ⟨rfl, by omega⟩

/-- C9: the single-chunk-cache invariant is preserved: get_chunk_data leaves
cached_chunk_idx = INVALID on any failure, restores it to the decoded chunk
index on success while keeping the invariant, a successful full read leaves
cached_chunk_idx on the last chunk touched, and a read that stopped short of
its clamped count leaves cached_chunk_idx = INVALID. -/
theorem single_chunk_cache_invariant :
    (∀ c i, (get_chunk_data c i).2 = none →
      (get_chunk_data c i).1.cached_chunk_idx = INVALID_CHUNK_INDEX) ∧
    (∀ (f : SCFile) (codec : List Nat → Nat → Option (List Nat)) c i,
      WF f codec → fileMatch c f codec → cacheOK f c → chunkCacheOK f codec c →
      i < f.n →
      chunkCacheOK f codec (get_chunk_data c i).1 ∧
      (get_chunk_data c i).1.cached_chunk_idx = i) ∧
    (∀ (f : SCFile) (codec : List Nat → Nat → Option (List Nat)) c (pos : Int)
      (count : Nat), WF f codec → fileMatch c f codec → cacheOK f c →
      chunkCacheOK f codec c → 0 ≤ pos → pos.toNat < f.uncompressed_size →
      1 ≤ count →
      ∃ c2, (ntfs_read_system_compressed_data (some c) pos count).rctx = some c2 ∧
        chunkCacheOK f codec c2 ∧
        c2.cached_chunk_idx
          = (pos.toNat + min count (f.uncompressed_size - pos.toNat) - 1) / f.cs) ∧
    (∀ c (pos : Int) (count : Nat), c.uncompressed_size < U64 → 0 ≤ pos →
      pos.toNat < c.uncompressed_size → 1 ≤ count →
      (ntfs_read_system_compressed_data (some c) pos count).bytes.length
          < min count (c.uncompressed_size - pos.toNat) →
      ∃ c2, (ntfs_read_system_compressed_data (some c) pos count).rctx = some c2 ∧
        c2.cached_chunk_idx = INVALID_CHUNK_INDEX) := by
  refine ⟨fun c i h => get_chunk_data_fail h, ?_, ?_, ?_⟩
  · intro f codec c i hWF hm hc hcc hi
    obtain ⟨c2, heq, _, _, hcc2, hci2⟩ := get_chunk_data_ok hWF hm hc hcc hi
    rw [heq]
    exact ⟨hcc2, hci2⟩
  · intro f codec c pos count hWF hm hc hcc hpos hlt hcount
    obtain ⟨c2, heq, _, _, hcc2, hci2⟩ := engine_read_ok hWF hm hc hcc hpos hlt hcount
    refine ⟨c2, ?_, hcc2, hci2⟩
    rw [heq]
  · intro c pos count husU hpos hlt hcount hshortlen
    have hcnt : 1 ≤ min count (c.uncompressed_size - pos.toNat) := by omega
    have hR := engine_entry_eq hpos hlt hcnt
    have hgeom := entry_geometry husU hlt
    have hdi := read_loop_dichotomy (min count (c.uncompressed_size - pos.toNat))
      (min count (c.uncompressed_size - pos.toNat)) c (pos.toNat >>> c.chunk_order)
      (pos.toNat &&& (chunkSizeOf c - 1)) hcnt (le_refl _) hgeom.2
    rw [hR] at hshortlen ⊢
    dsimp only at hshortlen ⊢
    rcases hdi with hfull | ⟨_, hinv⟩
    · omega
    · exact ⟨_, rfl, hinv⟩

/-- C7: for every chunk index valid as a u64 and every legitimate window
base (the INVALID marker or a base small enough that base + 128 does not
wrap), the code's two-disjunct window check is equivalent to the three-case
specification check; in particular the empty window (base = INVALID =
2^64 - 1) triggers a refill because chunk_idx < base then holds for every
valid chunk index. -/
theorem window_check_equivalence (base chunk_idx : Nat)
    (hbase : base = INVALID_CHUNK_INDEX ∨ base + NUM_CHUNK_OFFSETS < U64)
    (hi : chunk_idx + 1 < U64) :
    refillNeeded base chunk_idx = true ↔
      (base = INVALID_CHUNK_INDEX ∨ chunk_idx < base ∨
       chunk_idx + 1 ≥ base + NUM_CHUNK_OFFSETS) := by
  unfold refillNeeded
  simp only [Bool.or_eq_true, decide_eq_true_eq]
  rcases hbase with hinv | hsmall
  · subst hinv
    rw [invalid_eq]
    constructor
    · intro
      left
      rfl
    · intro
      left
      unfold U64 at *
      omega
  · have h1 : (chunk_idx + 1) % U64 = chunk_idx + 1 := Nat.mod_eq_of_lt (by omega)
    have h2 : (base + NUM_CHUNK_OFFSETS) % U64 = base + NUM_CHUNK_OFFSETS :=
      Nat.mod_eq_of_lt (by omega)
    rw [h1, h2]
    have hbinv : base ≠ INVALID_CHUNK_INDEX := by
      rw [invalid_eq]
      unfold NUM_CHUNK_OFFSETS at hsmall
      omega
    constructor
    · intro h
      rcases h with h | h
      · exact Or.inr (Or.inl h)
      · exact Or.inr (Or.inr h)
    · intro h
      rcases h with h | h | h
      · exact absurd h hbinv
      · exact Or.inl h
      · exact Or.inr h

/-- C10: the read engine called with a null context, or with a negative
position, returns -1 with errno EINVAL, delivers no bytes into the
destination buffer, and leaves the context slot unchanged. -/
theorem read_rejects_null_and_negative :
    (∀ (pos : Int) (count : Nat), ntfs_read_system_compressed_data none pos count
        = ⟨none, -1, [], some .einval⟩) ∧
    (∀ (c : DCtx) (pos : Int) (count : Nat), pos < 0 →
      ntfs_read_system_compressed_data (some c) pos count
        = ⟨some c, -1, [], some .einval⟩) := by
  constructor
  · intro pos count
    rfl
  · intro c pos count hneg
    unfold ntfs_read_system_compressed_data
    dsimp only
    rw [if_pos hneg]

/-- C1: plugin.c's compressed_read passes five arguments
(DECOMPRESSION_CTX(fi), ni, offset, size, buf) to
ntfs_read_system_compressed_data, whose declaration and definition take
four parameters (ctx, pos, count, buf): the call does not match the
engine's interface, so the inode is passed where the file position
belongs. -/
theorem compressed_read_call_mismatch :
    compressed_read_engine_argCount ≠ ntfs_read_system_compressed_data_paramCount := by
  decide

/-- C6: the format probe succeeds, returning the compression format read
from the blob, exactly when the inode has the reparse-point flag, the blob
is at least the 24-byte fixed record, the reparse tag is IO_REPARSE_TAG_WOF,
wof.version = 1, wof.provider = 2, file.version = 1, and the compression
format is one of 0,1,2,3; any mismatch yields EOPNOTSUPP
(not-system-compressed), and a failure to read the reparse attribute yields
a distinguishable I/O error. -/
theorem probe_format_signature :
    (∀ (ni : NInode) (rp : List Nat), ni.has_reparse_point_flag = true →
      ((∃ fmt, get_compression_format (some ni) (some rp) = .ok fmt) ↔
        (24 ≤ 8 + le_at rp 4 2 ∧ le_at rp 0 4 = IO_REPARSE_TAG_WOF ∧
         le_at rp 8 4 = 1 ∧ le_at rp 12 4 = 2 ∧ le_at rp 16 4 = 1 ∧
         (le_at rp 20 4 = 0 ∨ le_at rp 20 4 = 1 ∨
          le_at rp 20 4 = 2 ∨ le_at rp 20 4 = 3)))) ∧
    (∀ (ni : NInode) (rp : List Nat) (fmt : Nat),
      get_compression_format (some ni) (some rp) = .ok fmt →
      fmt = le_at rp 20 4 ∧ ni.has_reparse_point_flag = true) ∧
    (∀ (ni : NInode) (rp : List Nat),
      (¬ ∃ fmt, get_compression_format (some ni) (some rp) = .ok fmt) →
      get_compression_format (some ni) (some rp) = .error .eopnotsupp) ∧
    (∀ (ni : NInode) (rp : List Nat), ni.has_reparse_point_flag = true →
      ni.reparse_attr = some rp →
      ((∃ fmt, get_compression_format (some ni) none = .ok fmt) ↔
        (24 ≤ rp.length ∧ le_at rp 0 4 = IO_REPARSE_TAG_WOF ∧
         le_at rp 8 4 = 1 ∧ le_at rp 12 4 = 2 ∧ le_at rp 16 4 = 1 ∧
         (le_at rp 20 4 = 0 ∨ le_at rp 20 4 = 1 ∨
          le_at rp 20 4 = 2 ∨ le_at rp 20 4 = 3)))) ∧
    (∀ (ni : NInode), ni.has_reparse_point_flag = true → ni.reparse_attr = none →
      get_compression_format (some ni) none = .error .ereadfail) ∧
    Errno.ereadfail ≠ Errno.eopnotsupp := by
  have hord : ∀ (x : Nat), (x = 0 ∨ x = 2 ∨ x = 3 ∨ x = 1) ↔
      (x = 0 ∨ x = 1 ∨ x = 2 ∨ x = 3) := by
    intro x
    constructor <;> (intro h; tauto)
  have hsome : ∀ (ni : NInode) (rp : List Nat), ni.has_reparse_point_flag = true →
      get_compression_format (some ni) (some rp) =
        if 24 ≤ 8 + le_at rp 4 2 ∧ le_at rp 0 4 = IO_REPARSE_TAG_WOF ∧
           le_at rp 8 4 = 1 ∧ le_at rp 12 4 = 2 ∧ le_at rp 16 4 = 1 ∧
           (le_at rp 20 4 = 0 ∨ le_at rp 20 4 = 2 ∨
            le_at rp 20 4 = 3 ∨ le_at rp 20 4 = 1)
        then Except.ok (le_at rp 20 4) else Except.error Errno.eopnotsupp := by
    intro ni rp hflag
    unfold get_compression_format
    dsimp only
    rw [if_neg (by rw [hflag]; simp)]
  have hread : ∀ (ni : NInode) (rp : List Nat), ni.has_reparse_point_flag = true →
      ni.reparse_attr = some rp →
      get_compression_format (some ni) none =
        if 24 ≤ rp.length ∧ le_at rp 0 4 = IO_REPARSE_TAG_WOF ∧
           le_at rp 8 4 = 1 ∧ le_at rp 12 4 = 2 ∧ le_at rp 16 4 = 1 ∧
           (le_at rp 20 4 = 0 ∨ le_at rp 20 4 = 2 ∨
            le_at rp 20 4 = 3 ∨ le_at rp 20 4 = 1)
        then Except.ok (le_at rp 20 4) else Except.error Errno.eopnotsupp := by
    intro ni rp hflag hattr
    unfold get_compression_format
    dsimp only
    rw [if_neg (by rw [hflag]; simp), hattr]
    rfl
  refine ⟨?_, ?_, ?_, ?_, ?_, by decide⟩
  · intro ni rp hflag
    by_cases hcond : 24 ≤ 8 + le_at rp 4 2 ∧ le_at rp 0 4 = IO_REPARSE_TAG_WOF ∧
        le_at rp 8 4 = 1 ∧ le_at rp 12 4 = 2 ∧ le_at rp 16 4 = 1 ∧
        (le_at rp 20 4 = 0 ∨ le_at rp 20 4 = 2 ∨
         le_at rp 20 4 = 3 ∨ le_at rp 20 4 = 1)
    · refine iff_of_true ⟨le_at rp 20 4, ?_⟩ ?_
      · rw [hsome ni rp hflag, if_pos hcond]
      · exact ⟨hcond.1, hcond.2.1, hcond.2.2.1, hcond.2.2.2.1, hcond.2.2.2.2.1,
          (hord _).mp hcond.2.2.2.2.2⟩
    · refine iff_of_false ?_ ?_
      · rintro ⟨fmt, hfmt⟩
        rw [hsome ni rp hflag, if_neg hcond] at hfmt
        exact absurd hfmt (by simp)
      · intro hcl
        exact hcond ⟨hcl.1, hcl.2.1, hcl.2.2.1, hcl.2.2.2.1, hcl.2.2.2.2.1,
          (hord _).mpr hcl.2.2.2.2.2⟩
  · intro ni rp fmt hok
    by_cases hflag : ni.has_reparse_point_flag = true
    · rw [hsome ni rp hflag] at hok
      split_ifs at hok
      exact ⟨(Except.ok.inj hok).symm, hflag⟩
    · unfold get_compression_format at hok
      dsimp only at hok
      rw [if_pos (by simpa using hflag)] at hok
      exact absurd hok (by simp)
  · intro ni rp hnone
    by_cases hflag : ni.has_reparse_point_flag = true
    · by_cases hcond : 24 ≤ 8 + le_at rp 4 2 ∧ le_at rp 0 4 = IO_REPARSE_TAG_WOF ∧
          le_at rp 8 4 = 1 ∧ le_at rp 12 4 = 2 ∧ le_at rp 16 4 = 1 ∧
          (le_at rp 20 4 = 0 ∨ le_at rp 20 4 = 2 ∨
           le_at rp 20 4 = 3 ∨ le_at rp 20 4 = 1)
      · exact absurd ⟨le_at rp 20 4, by rw [hsome ni rp hflag, if_pos hcond]⟩ hnone
      · rw [hsome ni rp hflag, if_neg hcond]
    · unfold get_compression_format
      dsimp only
      rw [if_pos (by simpa using hflag)]
  · intro ni rp hflag hattr
    by_cases hcond : 24 ≤ rp.length ∧ le_at rp 0 4 = IO_REPARSE_TAG_WOF ∧
        le_at rp 8 4 = 1 ∧ le_at rp 12 4 = 2 ∧ le_at rp 16 4 = 1 ∧
        (le_at rp 20 4 = 0 ∨ le_at rp 20 4 = 2 ∨
         le_at rp 20 4 = 3 ∨ le_at rp 20 4 = 1)
    · refine iff_of_true ⟨le_at rp 20 4, ?_⟩ ?_
      · rw [hread ni rp hflag hattr, if_pos hcond]
      · exact ⟨hcond.1, hcond.2.1, hcond.2.2.1, hcond.2.2.2.1, hcond.2.2.2.2.1,
          (hord _).mp hcond.2.2.2.2.2⟩
    · refine iff_of_false ?_ ?_
      · rintro ⟨fmt, hfmt⟩
        rw [hread ni rp hflag hattr, if_neg hcond] at hfmt
        exact absurd hfmt (by simp)
      · intro hcl
        exact hcond ⟨hcl.1, hcl.2.1, hcl.2.2.1, hcl.2.2.2.1, hcl.2.2.2.2.1,
          (hord _).mpr hcl.2.2.2.2.2⟩
  · intro ni hflag hattr
    unfold get_compression_format
    dsimp only
    rw [if_neg (by rw [hflag]; simp), hattr]
    rfl

/-! ## Concrete fixtures for witness instantiations -/

/-- A codec that always fails; unused on files whose chunks are all stored
verbatim. -/
def sampleCodec : List Nat → Nat → Option (List Nat) := fun _ _ => none

/-- A one-byte file in one verbatim chunk. -/
def sampleFile : SCFile := ⟨12, 1, [[7]]⟩

/-- A freshly opened context on sampleFile (both caches empty). -/
def sampleCtx : DCtx :=
  ⟨SCFile.data sampleFile, 1, 12, sampleCodec, INVALID_CHUNK_INDEX, 0, [],
   INVALID_CHUNK_INDEX, []⟩

/-- The context after the window refill for chunk 0 of sampleFile. -/
def sampleLoc : DCtx :=
  { sampleCtx with
      base_chunk_idx := 0
      base_chunk_offset := 0
      chunk_offsets := [0, 1] }

/-- A context whose stream is far too short for its chunk table: three
chunks need a table of two 4-byte entries, but only 2 bytes exist. -/
def shortCtx : DCtx :=
  ⟨[1, 0], 8292, 12, sampleCodec, INVALID_CHUNK_INDEX, 0, [],
   INVALID_CHUNK_INDEX, []⟩

/-- An inode carrying the reparse-point flag. -/
def sampleInode : NInode := ⟨true, none, 0⟩

/-- A well-formed 24-byte WOF_FILE_PROVIDER_REPARSE_POINT_V1 blob selecting
format 0 (XPRESS4K). -/
def sampleRP : List Nat :=
  [23, 0, 0, 128, 16, 0, 0, 0, 1, 0, 0, 0, 2, 0, 0, 0, 1, 0, 0, 0, 0, 0, 0, 0]

theorem sampleFile_WF : WF sampleFile sampleCodec := by
  refine ⟨by decide, by decide, by decide, rfl, ?_⟩
  intro i hi
  have hn : sampleFile.n = 1 := rfl
  have hz : i = 0 := by omega
  subst hz
  exact ⟨by decide, by decide, fun hne => absurd (by decide) hne⟩

theorem sampleCtx_match : fileMatch sampleCtx sampleFile sampleCodec :=
  ⟨rfl, rfl, rfl, rfl⟩

theorem sampleCtx_cacheOK : cacheOK sampleFile sampleCtx := Or.inl rfl

theorem sampleCtx_chunkCacheOK : chunkCacheOK sampleFile sampleCodec sampleCtx :=
  Or.inl rfl

theorem read_engine_reference_slice_witness :
    (ntfs_read_system_compressed_data (some sampleCtx) 0 1).ret
      = ((min 1 (sampleFile.uncompressed_size - (0 : Int).toNat) : Nat) : Int) ∧
    (ntfs_read_system_compressed_data (some sampleCtx) 0 1).bytes
      = ((referenceDecomp sampleFile sampleCodec).drop (0 : Int).toNat).take 1 :=
  read_engine_reference_slice sampleFile_WF sampleCtx_match sampleCtx_cacheOK
    sampleCtx_chunkCacheOK (by decide) (by decide) (by decide)

theorem locate_window_lookup_witness :
    ∃ c1, get_chunk_location sampleCtx 0
        = (c1, some (c1.base_chunk_offset
              + c1.chunk_offsets.getD (0 - c1.base_chunk_idx) 0,
            c1.chunk_offsets.getD (0 - c1.base_chunk_idx + 1) 0
              - c1.chunk_offsets.getD (0 - c1.base_chunk_idx) 0)) ∧
      c1.base_chunk_idx ≤ 0 ∧
      (refillNeeded sampleCtx.base_chunk_idx 0 = true →
        c1.base_chunk_offset
          = sampleFile.e 0 + ((sampleFile.n - 1) <<< entryShift c1)) ∧
      (c1.base_chunk_idx + wlen sampleFile c1.base_chunk_idx = sampleFile.n →
        c1.chunk_offsets.getD (wlen sampleFile c1.base_chunk_idx) 0
          = compressedSize c1 - c1.base_chunk_offset) :=
  locate_window_lookup sampleFile_WF sampleCtx_match sampleCtx_cacheOK (by decide)

theorem read_chunk_invalid_and_verbatim_witness :
    ((read_and_decompress_chunk sampleCtx 0).2 = .error .invalidStored ↔
      (1 = 0 ∨ (if 0 = numChunks sampleCtx - 1
        then (sampleCtx.uncompressed_size - 1) % chunkSizeOf sampleCtx + 1
        else chunkSizeOf sampleCtx) < 1)) ∧
    ((1 : Nat) = (if 0 = numChunks sampleCtx - 1
        then (sampleCtx.uncompressed_size - 1) % chunkSizeOf sampleCtx + 1
        else chunkSizeOf sampleCtx) →
      0 + 1 ≤ sampleCtx.data.length →
      ∀ g, read_and_decompress_chunk { sampleCtx with codec := g } 0
        = ({ sampleLoc with codec := g },
           .ok (ntfs_attr_pread sampleCtx.data 0 1))) :=
  read_chunk_invalid_and_verbatim (by rfl) (by decide) (by decide)

theorem read_partial_success_rule_witness :
    ((ntfs_read_system_compressed_data (some sampleCtx) 0 1).ret = -1 ↔
      (ntfs_read_system_compressed_data (some sampleCtx) 0 1).bytes = []) ∧
    ((get_chunk_data sampleCtx ((0 : Int).toNat >>> sampleCtx.chunk_order)).2
        = none →
      (ntfs_read_system_compressed_data (some sampleCtx) 0 1).ret = -1 ∧
      (ntfs_read_system_compressed_data (some sampleCtx) 0 1).bytes = []) ∧
    ((ntfs_read_system_compressed_data (some sampleCtx) 0 1).bytes ≠ [] →
      (ntfs_read_system_compressed_data (some sampleCtx) 0 1).ret
        = ((ntfs_read_system_compressed_data (some sampleCtx) 0 1).bytes.length
            : Int) ∧
      1 ≤ (ntfs_read_system_compressed_data (some sampleCtx) 0 1).bytes.length) ∧
    (∀ c1 ch, get_chunk_data sampleCtx ((0 : Int).toNat >>> sampleCtx.chunk_order)
        = (c1, some ch) →
      1 ≤ (ntfs_read_system_compressed_data (some sampleCtx) 0 1).ret) :=
  read_partial_success_rule (by decide) (by decide) (by decide) (by decide)

theorem probe_format_signature_witness :
    (∃ fmt, get_compression_format (some sampleInode) (some sampleRP) = .ok fmt) ↔
      (24 ≤ 8 + le_at sampleRP 4 2 ∧ le_at sampleRP 0 4 = IO_REPARSE_TAG_WOF ∧
       le_at sampleRP 8 4 = 1 ∧ le_at sampleRP 12 4 = 2 ∧ le_at sampleRP 16 4 = 1 ∧
       (le_at sampleRP 20 4 = 0 ∨ le_at sampleRP 20 4 = 1 ∨
        le_at sampleRP 20 4 = 2 ∨ le_at sampleRP 20 4 = 3)) :=
  probe_format_signature.1 sampleInode sampleRP rfl

theorem window_check_equivalence_witness :
    refillNeeded INVALID_CHUNK_INDEX 5 = true ↔
      (INVALID_CHUNK_INDEX = INVALID_CHUNK_INDEX ∨ 5 < INVALID_CHUNK_INDEX ∨
       5 + 1 ≥ INVALID_CHUNK_INDEX + NUM_CHUNK_OFFSETS) :=
  window_check_equivalence INVALID_CHUNK_INDEX 5 (Or.inl rfl) (by decide)

theorem locate_short_read_invalidates_witness :
    (∀ c i, refillNeeded c.base_chunk_idx i = true →
      (rwBuf c i).length ≠ (rwNumEntries c i <<< entryShift c) % U64 →
      get_chunk_location c i
        = ({ c with base_chunk_idx := INVALID_CHUNK_INDEX }, none)) ∧
    ((0 : Int).toNat >>> shortCtx.chunk_order ≠ shortCtx.cached_chunk_idx →
      refillNeeded shortCtx.base_chunk_idx
        ((0 : Int).toNat >>> shortCtx.chunk_order) = true →
      (rwBuf shortCtx ((0 : Int).toNat >>> shortCtx.chunk_order)).length
        ≠ (rwNumEntries shortCtx ((0 : Int).toNat >>> shortCtx.chunk_order)
            <<< entryShift shortCtx) % U64 →
      (ntfs_read_system_compressed_data (some shortCtx) 0 1).ret = -1 ∧
      (ntfs_read_system_compressed_data (some shortCtx) 0 1).rctx
        = some { shortCtx with
            base_chunk_idx := INVALID_CHUNK_INDEX
            cached_chunk_idx := INVALID_CHUNK_INDEX }) ∧
    ((ntfs_read_system_compressed_data (some shortCtx) 0 1).bytes ≠ [] →
      (ntfs_read_system_compressed_data (some shortCtx) 0 1).ret
        = ((ntfs_read_system_compressed_data (some shortCtx) 0 1).bytes.length
            : Int) ∧
      1 ≤ (ntfs_read_system_compressed_data (some shortCtx) 0 1).bytes.length) :=
  locate_short_read_invalidates (by decide) (by decide) (by decide) (by decide)

theorem single_chunk_cache_invariant_witness :
    chunkCacheOK sampleFile sampleCodec (get_chunk_data sampleCtx 0).1 ∧
    (get_chunk_data sampleCtx 0).1.cached_chunk_idx = 0 :=
  single_chunk_cache_invariant.2.1 sampleFile sampleCodec sampleCtx 0
    sampleFile_WF sampleCtx_match sampleCtx_cacheOK sampleCtx_chunkCacheOK
    (by decide)

theorem read_rejects_null_and_negative_witness :
    ntfs_read_system_compressed_data (some sampleCtx) (-1) 5
      = ⟨some sampleCtx, -1, [], some .einval⟩ :=
  read_rejects_null_and_negative.2 sampleCtx (-1) 5 (by decide)
